import Mathlib

/-!
Verification development for the VideoClipper repository.

This file gives a shallow embedding of the logic of the repository:

- clip_generator/core.py : timestamp parsing and formatting,
  .marks ledger parsing, pairing of entries into raw segments
  (copies of the same helpers live in clip_generator/generate_clips.py;
  where the two copies differ - the UNKNOWN-pair policy - both are
  embedded separately);
- clip_generator/alignment.py : keyframe boundary alignment with
  Python bisect_left / bisect_right;
- background_marker/marker.py : the bounded clipboard retry protocol.

Modelling conventions:

- Python floats are modelled exactly: finite values as rationals,
  plus the special values inf, -inf and nan, with Python comparison
  semantics (every comparison involving nan is false).  In the
  timestamp codec and the alignment logic, rounding of real arithmetic
  to binary64 is elided: every concrete value used in a theorem below
  is exactly representable and exactly computed in binary64, so the
  model and the program agree at those points.  In the clipboard retry
  loop the budget guard depends on binary64 rounding (the interval
  literal 0.2 is not exactly representable), so there every float
  addition is rounded explicitly with roundB64, round-to-nearest,
  ties-to-even onto the 53-bit significand grid.
- Python strings are modelled as List Char (String.data); str.strip,
  str.lower, str.split and the int() / float() literal grammars are
  modelled for the ASCII fragment the program manipulates
  (numeric-literal underscores and non-ASCII whitespace are elided).
- File-system and subprocess collaborators (reading the .marks file,
  ffprobe keyframe extraction, the clipboard) are replaced by their
  payloads: a list of lines, a list of keyframe times, a scripted
  sequence of clipboard readings.
- Functions that raise exceptions return Except or Option; each
  distinct raise site is one error constructor carrying the data that
  appears in its message.
-/

namespace VideoClipper

/-! ## Characters and strings -/

/-- Whitespace recognised by the model of Python str.strip. -/
def isSpaceCh (c : Char) : Bool :=
  c = ' ' || c = '\t' || c = '\n' || c = '\r'

/-- ASCII lower-casing, the fragment of Python str.lower used here. -/
def toLowerCh (c : Char) : Char :=
  if 65 ≤ c.toNat ∧ c.toNat ≤ 90 then Char.ofNat (c.toNat + 32) else c

/-- Model of Python str.strip on a list of characters. -/
def stripChars (l : List Char) : List Char :=
  ((l.dropWhile isSpaceCh).reverse.dropWhile isSpaceCh).reverse

/-- Model of Python str.split(sep) for a one-character separator:
splits at every occurrence, keeping empty pieces. -/
def splitList (c : Char) : List Char → List (List Char)
  | [] => [[]]
  | a :: as =>
    let r := splitList c as
    if a = c then [] :: r
    else
      match r with
      | [] => [[a]]
      | g :: gs => (a :: g) :: gs

/-- Model of Python str.split(sep, 1): the text before the first
occurrence of the separator and the text after it, or none when the
separator does not occur. -/
def splitOnce (c : Char) : List Char → Option (List Char × List Char)
  | [] => none
  | a :: as =>
    if a = c then some ([], as)
    else
      match splitOnce c as with
      | none => none
      | some (pre, post) => some (a :: pre, post)

/-- Decimal digit test on the character code. -/
def isDigitCh (c : Char) : Bool :=
  decide (48 ≤ c.toNat) && decide (c.toNat ≤ 57)

/-- Numeric value of a decimal digit character. -/
def digitVal (c : Char) : ℕ := c.toNat - 48

/-- All characters are decimal digits. -/
def allDigits (l : List Char) : Bool := l.all isDigitCh

/-- Value of a big-endian decimal digit string. -/
def digitsVal (l : List Char) : ℕ := l.foldl (fun a c => 10 * a + digitVal c) 0

/-- Parse a non-empty all-digit string to a natural number. -/
def parseDigits (l : List Char) : Option ℕ :=
  if l ≠ [] ∧ allDigits l then some (digitsVal l) else none

/-- Parse an optional sign followed by a non-empty digit string; used
for int() and for the exponent of a float literal. -/
def parseSignedDigits (l : List Char) : Option ℤ :=
  if l.head? = some '+' then (parseDigits l.tail).map Int.ofNat
  else if l.head? = some '-' then (parseDigits l.tail).map (fun n => -(n : ℤ))
  else (parseDigits l).map Int.ofNat

/-- Decimal digit character for a value below ten. -/
def dChar (d : ℕ) : Char :=
  match d with
  | 0 => '0' | 1 => '1' | 2 => '2' | 3 => '3' | 4 => '4'
  | 5 => '5' | 6 => '6' | 7 => '7' | 8 => '8' | _ => '9'

/-- Big-endian decimal digits of a natural number, by peeling the last
digit; proof-side companion of natToChars. -/
def natDigits (n : ℕ) : List Char :=
  if h : n < 10 then [dChar n]
  else natDigits (n / 10) ++ [dChar (n % 10)]
  termination_by n
  decreasing_by
    exact Nat.div_lt_self (Nat.lt_of_lt_of_le (by norm_num) (Nat.le_of_not_lt h)) (by norm_num)

/-- Fuel-driven accumulator rendering of decimal digits; kernel-reducible. -/
def natToCharsAux (fuel n : ℕ) (acc : List Char) : List Char :=
  match fuel with
  | 0 => acc
  | fuel + 1 =>
    if n < 10 then dChar (n % 10) :: acc
    else natToCharsAux fuel (n / 10) (dChar (n % 10) :: acc)

/-- Decimal rendering of a natural number. -/
def natToChars (n : ℕ) : List Char := natToCharsAux (n + 1) n []

/-- Zero-padding to a minimum width, as in Python format {:02d} / {:03d}. -/
def padZeros (width : ℕ) (l : List Char) : List Char :=
  List.replicate (width - l.length) '0' ++ l

/-- Render a natural number padded to two digits. -/
def pad2 (n : ℕ) : List Char := padZeros 2 (natToChars n)

/-- Render a natural number padded to three digits. -/
def pad3 (n : ℕ) : List Char := padZeros 3 (natToChars n)

/-! ## Python float values -/

/-- A Python float: an exact finite value, an infinity, or nan. -/
inductive PyFloat where
  | finite (q : ℚ)
  | inf
  | ninf
  | nan
deriving DecidableEq, Repr

/-- Python float strict comparison; every comparison with nan is false. -/
def pyLt : PyFloat → PyFloat → Bool
  | .nan, _ => false
  | _, .nan => false
  | .finite a, .finite b => decide (a < b)
  | .finite _, .inf => true
  | .finite _, .ninf => false
  | .inf, _ => false
  | .ninf, .ninf => false
  | .ninf, _ => true

/-- Python float non-strict comparison; every comparison with nan is false. -/
def pyLe : PyFloat → PyFloat → Bool
  | .nan, _ => false
  | _, .nan => false
  | .finite a, .finite b => decide (a ≤ b)
  | .finite _, .inf => true
  | .finite _, .ninf => false
  | .inf, .inf => true
  | .inf, _ => false
  | .ninf, _ => true

/-- Python a >= b on floats. -/
def pyGe (a b : PyFloat) : Bool := pyLe b a

/-- Add an exact rational (from integer fields scaled by 60 / 3600) to a
Python float. -/
def pyAddQ (q : ℚ) : PyFloat → PyFloat
  | .finite a => .finite (q + a)
  | .inf => .inf
  | .ninf => .ninf
  | .nan => .nan

/-- Decidable equality for Except, used to state concrete evaluations
of the fallible functions below. -/
instance {ε α : Type} [DecidableEq ε] [DecidableEq α] : DecidableEq (Except ε α) :=
  fun x y =>
    match x, y with
    | .error a, .error b =>
      if h : a = b then .isTrue (h ▸ rfl) else .isFalse (fun e => h (Except.error.inj e))
    | .ok a, .ok b =>
      if h : a = b then .isTrue (h ▸ rfl) else .isFalse (fun e => h (Except.ok.inj e))
    | .error _, .ok _ => .isFalse (fun e => Except.noConfusion e)
    | .ok _, .error _ => .isFalse (fun e => Except.noConfusion e)

/-- Mantissa of a float literal: digits, optionally with one decimal
point, at least one digit overall. -/
def parseMantissa (u : List Char) : Option ℚ :=
  match splitOnce '.' u with
  | none => if u ≠ [] ∧ allDigits u then some ((digitsVal u : ℚ)) else none
  | some (ip, fp) =>
    if (ip ≠ [] ∨ fp ≠ []) ∧ allDigits ip ∧ allDigits fp then
      some ((digitsVal ip : ℚ) + (digitsVal fp : ℚ) / 10 ^ fp.length)
    else none

/-- Scale a mantissa by a power of ten given by the exponent field. -/
def qShift (m : ℚ) (e : ℤ) : ℚ :=
  if 0 ≤ e then m * 10 ^ e.toNat else m / 10 ^ (-e).toNat

/-- Finite part of the float literal grammar: mantissa with optional
exponent introduced by the letter e. -/
def parseFiniteFloat (u : List Char) : Option ℚ :=
  match splitOnce 'e' u with
  | none => parseMantissa u
  | some (mant, ex) =>
    match parseMantissa mant, parseSignedDigits ex with
    | some m, some e => some (qShift m e)
    | _, _ => none

/-- Model of Python float(text): optional sign, then inf / infinity /
nan (case-insensitive) or a finite literal. -/
def pyFloatChars (l : List Char) : Option PyFloat :=
  let t := (stripChars l).map toLowerCh
  let neg : Bool := t.head? = some '-'
  let u := if t.head? = some '+' ∨ t.head? = some '-' then t.tail else t
  if u = "inf".data ∨ u = "infinity".data then some (if neg then .ninf else .inf)
  else if u = "nan".data then some .nan
  else (parseFiniteFloat u).map (fun q => .finite (if neg then -q else q))

/-- Model of Python int(text). -/
def pyIntChars (l : List Char) : Option ℤ :=
  parseSignedDigits (stripChars l)

/-- Python round() to an integer: round half to even. -/
def pyRound (q : ℚ) : ℤ :=
  let f := ⌊q⌋
  let r := q - f
  if r < 1 / 2 then f
  else if 1 / 2 < r then f + 1
  else if Even f then f else f + 1

/-- Rounding half up, the rule named by the specification text for
TimestampCodec.format; kept for comparison with pyRound. -/
def roundHalfUp (q : ℚ) : ℤ := ⌊q + 1 / 2⌋

/-! ## Timestamp codec (core.py / generate_clips.py, identical copies) -/

/-- Branch of _parse_timestamp_to_seconds on the colon-separated parts:
SS, MM:SS or HH:MM:SS, the last field a float, with the range checks of
the source; more than three fields is an error. -/
def timestampFromParts (parts : List (List Char)) : Option PyFloat :=
  match parts with
  | [p] => do
    let s ← pyFloatChars p
    if pyLt s (.finite 0) then none else some s
  | [pm, ps] => do
    let m ← pyIntChars pm
    let s ← pyFloatChars ps
    if decide (m < 0) || decide (60 ≤ m) || pyLt s (.finite 0) || pyGe s (.finite 60) then none
    else some (pyAddQ ((m : ℚ) * 60) s)
  | [ph, pm, ps] => do
    let h ← pyIntChars ph
    let m ← pyIntChars pm
    let s ← pyFloatChars ps
    if decide (h < 0) || decide (m < 0) || decide (60 ≤ m) || pyLt s (.finite 0) || pyGe s (.finite 60) then none
    else some (pyAddQ ((h : ℚ) * 3600 + (m : ℚ) * 60) s)
  | _ => none

/-- Model of _parse_timestamp_to_seconds on a character list. -/
def parseTimestampChars (l : List Char) : Option PyFloat :=
  let t := stripChars l
  if t = [] then none else timestampFromParts (splitList ':' t)

/-- Model of _parse_timestamp_to_seconds; none models the ValueError. -/
def parse_timestamp_to_seconds (s : String) : Option PyFloat :=
  parseTimestampChars s.data

/-- Rendering stage of _format_seconds_to_timestamp from the total
millisecond count: HH:MM:SS, with a dot and three millisecond digits
appended only when the millisecond remainder is non-zero. -/
def formatMs (totalMs : ℕ) : List Char :=
  let ms := totalMs % 1000
  let totalSec := totalMs / 1000
  let h := totalSec / 3600
  let m := totalSec % 3600 / 60
  let s := totalSec % 60
  let base := pad2 h ++ ':' :: pad2 m ++ ':' :: pad2 s
  if ms = 0 then base else base ++ '.' :: pad3 ms

/-- Model of _format_seconds_to_timestamp: clamp negatives to zero,
round seconds times one thousand with Python round, then render. -/
def format_seconds_to_timestamp (sec : ℚ) : String :=
  ⟨formatMs ((pyRound ((if sec < 0 then 0 else sec) * 1000)).toNat)⟩

/-! ## Marks ledger parsing (core.py / generate_clips.py, identical copies) -/

/-- A parsed ledger entry: source line number, raw timestamp text and
normalised tag. -/
structure Entry where
  lineNo : ℕ
  tsRaw : String
  tag : String
deriving DecidableEq, Repr

/-- Errors of _parse_marks_file, one constructor per raise site. -/
inductive MarksErr where
  | missingComma (lineNo : ℕ) (content : String)
  | invalidTag (lineNo : ℕ) (tag : String)
  | emptyLedger
  | unpairedEntries (count : ℕ)
  | outOfOrder (line1 line2 : ℕ) (tag1 tag2 : String)
deriving DecidableEq, Repr

/-- Line loop of _parse_marks_file: skip blank lines, require a comma,
strip the timestamp, lower-case the tag, require start or end.  Line
numbering counts every line, blank ones included. -/
def parseEntriesAux (idx : ℕ) : List String → Except MarksErr (List Entry)
  | [] => .ok []
  | line :: rest =>
    let raw := stripChars line.data
    if raw = [] then parseEntriesAux (idx + 1) rest
    else
      match splitOnce ',' raw with
      | none => .error (.missingComma idx ⟨raw⟩)
      | some (tsPart, tagPart) =>
        let ts := stripChars tsPart
        let tag := (stripChars tagPart).map toLowerCh
        if tag = "start".data ∨ tag = "end".data then
          match parseEntriesAux (idx + 1) rest with
          | .ok es => .ok (⟨idx, ⟨ts⟩, ⟨tag⟩⟩ :: es)
          | .error e => .error e
        else .error (.invalidTag idx ⟨tag⟩)

/-- Pair-order loop of _parse_marks_file: consecutive pairs must be
(start, end); the first offending pair is reported. -/
def checkPairsOrder : List Entry → Except MarksErr Unit
  | e1 :: e2 :: rest =>
    if e1.tag = "start" ∧ e2.tag = "end" then checkPairsOrder rest
    else .error (.outOfOrder e1.lineNo e2.lineNo e1.tag e2.tag)
  | _ => .ok ()

/-- Count and order checks of _parse_marks_file, run after the line
loop: zero entries, odd count, then pair order. -/
def validateEntries (entries : List Entry) : Except MarksErr (List Entry) :=
  if entries.length = 0 then .error .emptyLedger
  else if entries.length % 2 ≠ 0 then .error (.unpairedEntries entries.length)
  else
    match checkPairsOrder entries with
    | .error e => .error e
    | .ok _ => .ok entries

/-- Model of _parse_marks_file on the list of lines of the .marks file:
parse the entries, then require a non-zero even count and alternating
(start, end) pairs. -/
def parse_marks_lines (lines : List String) : Except MarksErr (List Entry) :=
  match parseEntriesAux 1 lines with
  | .error e => .error e
  | .ok entries => validateEntries entries

/-! ## Pairing entries into segments: the two policy variants -/

/-- Errors of the core.py _build_segments_from_entries, one constructor
per raise site; oddEntries models the IndexError a Python list access
would raise on an odd entry count (unreachable after validation). -/
inductive BuildErr where
  | unknownPair (pairIndex line1 line2 : ℕ) (ts1 ts2 : String)
  | invalidTimestamp (pairIndex line1 line2 : ℕ) (ts : String)
  | nonPositiveDuration (pairIndex line1 line2 : ℕ)
  | oddEntries
deriving DecidableEq, Repr

/-- A raw segment as built by core.py: pair index, diagnostic line
numbers, raw strings and parsed seconds. -/
structure RawSeg where
  pairIndex : ℕ
  startLine : ℕ
  endLine : ℕ
  startStr : String
  endStr : String
  startSec : PyFloat
  endSec : PyFloat
deriving DecidableEq, Repr

/-- Pair loop of core.py _build_segments_from_entries: an UNKNOWN
timestamp in a pair is a fatal error; timestamps are parsed and a pair
with start at or after end is a fatal error. -/
def coreBuildAux (pi : ℕ) : List Entry → Except BuildErr (List RawSeg)
  | [] => .ok []
  | [_] => .error .oddEntries
  | s :: e :: rest =>
    let k := pi + 1
    if s.tsRaw = "UNKNOWN" ∨ e.tsRaw = "UNKNOWN" then
      .error (.unknownPair k s.lineNo e.lineNo s.tsRaw e.tsRaw)
    else
      match parse_timestamp_to_seconds s.tsRaw with
      | none => .error (.invalidTimestamp k s.lineNo e.lineNo s.tsRaw)
      | some ssec =>
        match parse_timestamp_to_seconds e.tsRaw with
        | none => .error (.invalidTimestamp k s.lineNo e.lineNo e.tsRaw)
        | some esec =>
          if pyGe ssec esec then .error (.nonPositiveDuration k s.lineNo e.lineNo)
          else
            match coreBuildAux k rest with
            | .error err => .error err
            | .ok segs => .ok (⟨k, s.lineNo, e.lineNo, s.tsRaw, e.tsRaw, ssec, esec⟩ :: segs)

/-- Model of core.py _build_segments_from_entries (the GUI-side copy,
used by core.load_segments_from_marks). -/
def core_build_segments_from_entries (entries : List Entry) : Except BuildErr (List RawSeg) :=
  coreBuildAux 0 entries

/-- A pending segment of generate_clips.py before timestamp conversion. -/
structure PendingSeg where
  pairIndex : ℕ
  startLine : ℕ
  endLine : ℕ
  startStr : String
  endStr : String
deriving DecidableEq, Repr

/-- A pair skipped by generate_clips.py because of an UNKNOWN timestamp. -/
structure SkippedPair where
  pairIndex : ℕ
  startLine : ℕ
  endLine : ℕ
  tsStart : String
  tsEnd : String
deriving DecidableEq, Repr

/-- Pair loop of generate_clips.py _build_segments_from_entries: a pair
with an UNKNOWN timestamp is recorded in the skipped list and the loop
continues; none models the IndexError on an odd entry count
(unreachable after validation). -/
def cliBuildAux (pi : ℕ) : List Entry → Option (List PendingSeg × List SkippedPair)
  | [] => some ([], [])
  | [_] => none
  | s :: e :: rest =>
    let k := pi + 1
    match cliBuildAux k rest with
    | none => none
    | some (vs, sks) =>
      if s.tsRaw = "UNKNOWN" ∨ e.tsRaw = "UNKNOWN" then
        some (vs, ⟨k, s.lineNo, e.lineNo, s.tsRaw, e.tsRaw⟩ :: sks)
      else
        some (⟨k, s.lineNo, e.lineNo, s.tsRaw, e.tsRaw⟩ :: vs, sks)

/-- Model of generate_clips.py _build_segments_from_entries (the
CLI-side copy): valid segments and skipped UNKNOWN pairs. -/
def cli_build_segments_from_entries (entries : List Entry) :
    Option (List PendingSeg × List SkippedPair) :=
  cliBuildAux 0 entries

/-- Hypothesis helper: both timestamps of a pair parse and the pair
passes the start-before-end check of core.py. -/
def pairParsesOK (a b : String) : Bool :=
  match parse_timestamp_to_seconds a, parse_timestamp_to_seconds b with
  | some x, some y => !(pyGe x y)
  | _, _ => false

/-! ## Keyframe alignment (alignment.py) -/

/-- A raw segment as consumed by alignment.py; keyframe times and
boundaries are finite floats, modelled as exact rationals. -/
structure RawSegQ where
  pairIndex : ℕ
  startSec : ℚ
  endSec : ℚ
deriving DecidableEq, Repr

/-- An aligned segment: the raw boundaries plus the final boundaries,
whether keyframe alignment was used, and the note string of the source. -/
structure AlignedSeg where
  pairIndex : ℕ
  startSec : ℚ
  endSec : ℚ
  startFinal : ℚ
  endFinal : ℚ
  usedKeyframeAlignment : Bool
  alignmentNote : String
deriving DecidableEq, Repr

/-- Python bisect.bisect_left binary search, fuel-driven so that the
kernel can evaluate it; the interval shrinks every step, so fuel equal
to the list length suffices. -/
def bisectLeftAux (a : List ℚ) (x : ℚ) : ℕ → ℕ → ℕ → ℕ
  | 0, lo, _ => lo
  | fuel + 1, lo, hi =>
    if lo < hi then
      let mid := (lo + hi) / 2
      if a.getD mid 0 < x then bisectLeftAux a x fuel (mid + 1) hi
      else bisectLeftAux a x fuel lo mid
    else lo

/-- Model of bisect.bisect_left over the whole list. -/
def bisect_left (a : List ℚ) (x : ℚ) : ℕ := bisectLeftAux a x a.length 0 a.length

/-- Python bisect.bisect_right binary search, fuel-driven. -/
def bisectRightAux (a : List ℚ) (x : ℚ) : ℕ → ℕ → ℕ → ℕ
  | 0, lo, _ => lo
  | fuel + 1, lo, hi =>
    if lo < hi then
      let mid := (lo + hi) / 2
      if x < a.getD mid 0 then bisectRightAux a x fuel lo mid
      else bisectRightAux a x fuel (mid + 1) hi
    else lo

/-- Model of bisect.bisect_right over the whole list. -/
def bisect_right (a : List ℚ) (x : ℚ) : ℕ := bisectRightAux a x a.length 0 a.length

/-- Candidate aligned boundaries of _align_single_segment_with_keyframes
before the degeneracy check: first keyframe at or after the start (last
keyframe when the start is past all of them), last keyframe at or
before the end (first keyframe when the end precedes all of them). -/
def alignCandidates (startSec endSec : ℚ) (keyframes : List ℚ) : ℚ × ℚ :=
  let idxStart := bisect_left keyframes startSec
  let startAligned :=
    if keyframes.length ≤ idxStart then keyframes.getD (keyframes.length - 1) 0
    else keyframes.getD idxStart 0
  let br := bisect_right keyframes endSec
  let endAligned := if br = 0 then keyframes.getD 0 0 else keyframes.getD (br - 1) 0
  (startAligned, endAligned)

/-- Model of _align_single_segment_with_keyframes: empty keyframe data
or a degenerate input is returned unchanged with the flag false; a
degenerate aligned pair falls back to the raw boundaries. -/
def align_single_segment_with_keyframes (startSec endSec : ℚ) (keyframes : List ℚ) :
    ℚ × ℚ × Bool :=
  if keyframes = [] ∨ endSec ≤ startSec then (startSec, endSec, false)
  else
    let c := alignCandidates startSec endSec keyframes
    if c.2 ≤ c.1 then (startSec, endSec, false)
    else (c.1, c.2, true)

/-- Model of align_segments_with_keyframes; the keyframe list stands
for the ffprobe result, already sorted by the source before use.  The
note strings are those of the source. -/
def align_segments_with_keyframes (segments : List RawSegQ) (keyframes : List ℚ)
    (mode : String) : Except String (List AlignedSeg) :=
  if mode = "none" then
    .ok (segments.map fun g =>
      ⟨g.pairIndex, g.startSec, g.endSec, g.startSec, g.endSec, false, "align_mode=none"⟩)
  else if mode ≠ "keyframe" then .error ("Unsupported align_mode: " ++ mode)
  else if keyframes = [] then
    .ok (segments.map fun g =>
      ⟨g.pairIndex, g.startSec, g.endSec, g.startSec, g.endSec, false, "no_keyframe_info_fallback"⟩)
  else
    .ok (segments.map fun g =>
      match align_single_segment_with_keyframes g.startSec g.endSec keyframes with
      | (sa, ea, true) =>
        ⟨g.pairIndex, g.startSec, g.endSec, sa, ea, true, "aligned_to_keyframe"⟩
      | (_, _, false) =>
        ⟨g.pairIndex, g.startSec, g.endSec, g.startSec, g.endSec, false,
          "alignment_degenerate_fallback"⟩)

/-- Modelled from the spec wording for comparison: the first keyframe
at or after the boundary. -/
def firstKeyframeGE (keyframes : List ℚ) (x : ℚ) : Option ℚ :=
  keyframes.find? (fun k => decide (x ≤ k))

/-- Modelled from the spec wording for comparison: the last keyframe at
or before the boundary. -/
def lastKeyframeLE (keyframes : List ℚ) (x : ℚ) : Option ℚ :=
  (keyframes.filter (fun k => decide (k ≤ x))).getLast?

/-- Spec-side aligned start: first keyframe at or after the start, or
the last keyframe when the start is past every keyframe. -/
def specAlignedStart (keyframes : List ℚ) (x : ℚ) : ℚ :=
  match firstKeyframeGE keyframes x with
  | some k => k
  | none => keyframes.getLastD 0

/-- Spec-side aligned end: last keyframe at or before the end, or the
first keyframe when the end precedes every keyframe. -/
def specAlignedEnd (keyframes : List ℚ) (x : ℚ) : ℚ :=
  match lastKeyframeLE keyframes x with
  | some k => k
  | none => keyframes.headD 0

/-! ## Clipboard retry protocol (background_marker/marker.py)

The delay constants of marker.py are binary64 literals and the loop
accumulates total_wait with binary64 additions, so the budget guard
depends on floating-point rounding: 0.2 is not exactly representable,
the accumulated wait after nine retries is the binary64 value
2.8000000000000003, and adding the interval once more rounds to
3.0000000000000004 > 3.0, failing the guard.  The model carries the
exact rational values of the binary64 numbers involved and rounds
every addition of the loop with roundB64. -/

/-- Binary64 round-to-nearest, ties to even: the nearest rational with
at most 53 significant bits, as produced by every Python float
operation here.  Normal range only (no overflow or subnormal
handling), which covers the second-scale magnitudes of the retry
loop. -/
def roundB64 (q : ℚ) : ℚ :=
  if 0 < q then
    (pyRound (q / 2 ^ (Int.log 2 q - 52)) : ℚ) * 2 ^ (Int.log 2 q - 52)
  else if q < 0 then
    -((pyRound (-q / 2 ^ (Int.log 2 (-q) - 52)) : ℚ) * 2 ^ (Int.log 2 (-q) - 52))
  else 0

/-- First wait before reading the clipboard, in seconds: the binary64
literal 1.0, exactly representable. -/
def CLIPBOARD_INITIAL_DELAY_SEC : ℚ := 1

/-- Wait between clipboard retries, in seconds: the exact rational
value of the binary64 literal 0.2, slightly above one fifth. -/
def CLIPBOARD_RETRY_INTERVAL_SEC : ℚ := 3602879701896397 / 2 ^ 54

/-- Total wait budget, counted from the first wait, in seconds: the
binary64 literal 3.0, exactly representable. -/
def CLIPBOARD_MAX_WAIT_SEC : ℚ := 3

/-- An absent or empty clipboard reading becomes the UNKNOWN sentinel. -/
def normalizeReading (r : Option String) : String :=
  match r with
  | none => "UNKNOWN"
  | some s => if s = "" then "UNKNOWN" else s

/-- Value of the total_wait variable after the initial delay and k
retry waits, with every addition rounded to binary64 as in the source
(0.0 + 1.0 is exact, so the initial value is 1). -/
def totalWaitAfter : ℕ → ℚ
  | 0 => CLIPBOARD_INITIAL_DELAY_SEC
  | k + 1 => roundB64 (totalWaitAfter k + CLIPBOARD_RETRY_INTERVAL_SEC)

/-- Retry loop of _get_timestamp_with_retry: while the reading equals
the reference and the binary64 sum total_wait + interval stays within
the budget, wait and read again, the rounded sum becoming the new
total_wait.  The accumulated rounding makes the guard fail after nine
retries, so the fuel of ten makes the fuel check unreachable; k counts
the retries taken and reads k is the reading obtained after the k-th
wait. -/
def retryAux (ref : String) (reads : ℕ → Option String) :
    ℕ → ℕ → ℚ → String → String × ℕ × ℚ
  | 0, k, tw, ts => (ts, k, tw)
  | fuel + 1, k, tw, ts =>
    if ts = ref ∧ roundB64 (tw + CLIPBOARD_RETRY_INTERVAL_SEC) ≤ CLIPBOARD_MAX_WAIT_SEC then
      retryAux ref reads fuel (k + 1) (roundB64 (tw + CLIPBOARD_RETRY_INTERVAL_SEC))
        (normalizeReading (reads (k + 1)))
    else (ts, k, tw)

/-- Fuel for the retry loop; the binary64 budget guard stops the loop
after nine retries, so ten is never exhausted. -/
def RETRY_FUEL : ℕ := 10

/-- Model of MarkerState._get_timestamp_with_retry on a scripted
sequence of clipboard readings; returns the accepted timestamp together
with the value of the total_wait variable of the source at return. -/
def get_timestamp_with_retry (referenceTimestamp : Option String)
    (reads : ℕ → Option String) : String × ℚ :=
  let ts0 := normalizeReading (reads 0)
  match referenceTimestamp with
  | none => (ts0, CLIPBOARD_INITIAL_DELAY_SEC)
  | some ref =>
    if ts0 ≠ ref then (ts0, CLIPBOARD_INITIAL_DELAY_SEC)
    else
      let r := retryAux ref reads RETRY_FUEL 0 CLIPBOARD_INITIAL_DELAY_SEC ts0
      (r.1, r.2.2)

/-! ## Lemmas: digit characters and decimal renderings -/

theorem char_ne_of_toNat {c d : Char} (h : c.toNat ≠ d.toNat) : c ≠ d :=
  fun e => h (e ▸ rfl)

theorem isDigitCh_bounds {c : Char} (h : isDigitCh c = true) :
    48 ≤ c.toNat ∧ c.toNat ≤ 57 := by
  simpa [isDigitCh, Bool.and_eq_true, decide_eq_true_eq] using h

theorem toLowerCh_digit {c : Char} (h : isDigitCh c = true) : toLowerCh c = c := by
  obtain ⟨-, h2⟩ := isDigitCh_bounds h
  rw [toLowerCh, if_neg]
  rintro ⟨h65, -⟩
  omega

theorem isSpaceCh_digit {c : Char} (h : isDigitCh c = true) : isSpaceCh c = false := by
  obtain ⟨h1, h2⟩ := isDigitCh_bounds h
  have e1 : (' ').toNat = 32 := rfl
  have e2 : ('\t').toNat = 9 := rfl
  have e3 : ('\n').toNat = 10 := rfl
  have e4 : ('\r').toNat = 13 := rfl
  simp only [isSpaceCh, Bool.or_eq_false_iff, decide_eq_false_iff_not]
  refine ⟨⟨⟨?_, ?_⟩, ?_⟩, ?_⟩ <;> exact char_ne_of_toNat (by omega)

theorem digit_ne_plus {c : Char} (h : isDigitCh c = true) : c ≠ '+' := by
  obtain ⟨h1, h2⟩ := isDigitCh_bounds h
  have : ('+').toNat = 43 := rfl
  exact char_ne_of_toNat (by omega)

theorem digit_ne_minus {c : Char} (h : isDigitCh c = true) : c ≠ '-' := by
  obtain ⟨h1, h2⟩ := isDigitCh_bounds h
  have : ('-').toNat = 45 := rfl
  exact char_ne_of_toNat (by omega)

theorem digit_ne_colon {c : Char} (h : isDigitCh c = true) : c ≠ ':' := by
  obtain ⟨h1, h2⟩ := isDigitCh_bounds h
  have : (':').toNat = 58 := rfl
  exact char_ne_of_toNat (by omega)

theorem digit_ne_dot {c : Char} (h : isDigitCh c = true) : c ≠ '.' := by
  obtain ⟨h1, h2⟩ := isDigitCh_bounds h
  have : ('.').toNat = 46 := rfl
  exact char_ne_of_toNat (by omega)

theorem digit_ne_e {c : Char} (h : isDigitCh c = true) : c ≠ 'e' := by
  obtain ⟨h1, h2⟩ := isDigitCh_bounds h
  have : ('e').toNat = 101 := rfl
  exact char_ne_of_toNat (by omega)

theorem digit_ne_i {c : Char} (h : isDigitCh c = true) : c ≠ 'i' := by
  obtain ⟨h1, h2⟩ := isDigitCh_bounds h
  have : ('i').toNat = 105 := rfl
  exact char_ne_of_toNat (by omega)

theorem digit_ne_n {c : Char} (h : isDigitCh c = true) : c ≠ 'n' := by
  obtain ⟨h1, h2⟩ := isDigitCh_bounds h
  have : ('n').toNat = 110 := rfl
  exact char_ne_of_toNat (by omega)

theorem isDigitCh_dChar {d : ℕ} (h : d < 10) : isDigitCh (dChar d) = true := by
  interval_cases d <;> decide

theorem digitVal_dChar {d : ℕ} (h : d < 10) : digitVal (dChar d) = d := by
  interval_cases d <;> decide

theorem natToCharsAux_eq (fuel : ℕ) :
    ∀ n acc, n < fuel → natToCharsAux fuel n acc = natDigits n ++ acc := by
  induction fuel with
  | zero => intro n acc h; omega
  | succ fuel ih =>
    intro n acc h
    rw [natToCharsAux]
    by_cases h10 : n < 10
    · rw [if_pos h10, natDigits, dif_pos h10, Nat.mod_eq_of_lt h10]
      rfl
    · have hlt : n / 10 < fuel :=
        lt_of_lt_of_le (Nat.div_lt_self (by omega) (by norm_num)) (Nat.le_of_lt_succ h)
      rw [if_neg h10, ih (n / 10) _ hlt]
      conv_rhs => rw [natDigits]
      rw [dif_neg h10, List.append_assoc]
      rfl

theorem natToChars_eq (n : ℕ) : natToChars n = natDigits n := by
  rw [natToChars, natToCharsAux_eq (n + 1) n [] (Nat.lt_succ_self n), List.append_nil]

theorem natDigits_ne_nil (n : ℕ) : natDigits n ≠ [] := by
  rw [natDigits]
  split
  · simp
  · simp

theorem natDigits_digits (n : ℕ) : ∀ c ∈ natDigits n, isDigitCh c = true := by
  induction n using Nat.strong_induction_on with
  | _ n ih =>
    intro c hc
    rw [natDigits] at hc
    split at hc
    · next h10 =>
      simp only [List.mem_singleton] at hc
      exact hc ▸ isDigitCh_dChar h10
    · next h10 =>
      rcases List.mem_append.1 hc with h | h
      · exact ih (n / 10) (Nat.div_lt_self (by omega) (by norm_num)) c h
      · simp only [List.mem_singleton] at h
        exact h ▸ isDigitCh_dChar (Nat.mod_lt _ (by norm_num))

theorem digitsVal_foldl_init (l : List Char) :
    ∀ a : ℕ, l.foldl (fun a c => 10 * a + digitVal c) a
      = a * 10 ^ l.length + l.foldl (fun a c => 10 * a + digitVal c) 0 := by
  induction l with
  | nil => intro a; simp
  | cons c cs ih =>
    intro a
    simp only [List.foldl_cons, List.length_cons]
    rw [ih (10 * a + digitVal c), ih (10 * 0 + digitVal c)]
    ring

theorem digitsVal_append_singleton (l : List Char) (d : Char) :
    digitsVal (l ++ [d]) = 10 * digitsVal l + digitVal d := by
  simp [digitsVal, List.foldl_append]

theorem digitsVal_natDigits (n : ℕ) : digitsVal (natDigits n) = n := by
  induction n using Nat.strong_induction_on with
  | _ n ih =>
    rw [natDigits]
    split
    · next h10 =>
      simp only [digitsVal, List.foldl_cons, List.foldl_nil]
      rw [digitVal_dChar h10]
      omega
    · next h10 =>
      rw [digitsVal_append_singleton,
        ih (n / 10) (Nat.div_lt_self (by omega) (by norm_num)),
        digitVal_dChar (Nat.mod_lt _ (by norm_num))]
      omega

theorem natDigits_length_le {n k : ℕ} (hk : 0 < k) (h : n < 10 ^ k) :
    (natDigits n).length ≤ k := by
  induction n using Nat.strong_induction_on generalizing k with
  | _ n ih =>
    rw [natDigits]
    split
    · next h10 => simpa using hk
    · next h10 =>
      simp only [List.length_append, List.length_singleton]
      have hk2 : 2 ≤ k := by
        by_contra hcon
        interval_cases k <;> omega
      have : n / 10 < 10 ^ (k - 1) := by
        have h1 : n < 10 ^ (k - 1) * 10 := by
          have : 10 ^ (k - 1) * 10 = 10 ^ k := by
            rw [← pow_succ]
            congr 1
            omega
          omega
        omega
      have := ih (n / 10) (Nat.div_lt_self (by omega) (by norm_num)) (k := k - 1) (by omega) this
      omega

theorem digitsVal_replicate_zero (z : ℕ) (l : List Char) :
    digitsVal (List.replicate z '0' ++ l) = digitsVal l := by
  induction z with
  | zero => simp
  | succ z ih =>
    rw [List.replicate_succ]
    simpa [digitsVal] using ih

theorem mem_padZeros {w : ℕ} {l : List Char} {c : Char} (h : c ∈ padZeros w l) :
    c = '0' ∨ c ∈ l := by
  rcases List.mem_append.1 h with h | h
  · exact Or.inl (List.eq_of_mem_replicate h)
  · exact Or.inr h

theorem padZeros_digits {w : ℕ} {l : List Char} (hl : ∀ c ∈ l, isDigitCh c = true) :
    ∀ c ∈ padZeros w l, isDigitCh c = true := by
  intro c hc
  rcases mem_padZeros hc with rfl | hc
  · decide
  · exact hl c hc

theorem padZeros_ne_nil {w : ℕ} {l : List Char} (hl : l ≠ []) : padZeros w l ≠ [] := by
  rw [padZeros]
  intro h
  rcases List.append_eq_nil.1 h with ⟨-, h2⟩
  exact hl h2

theorem digitsVal_padZeros (w : ℕ) (l : List Char) :
    digitsVal (padZeros w l) = digitsVal l :=
  digitsVal_replicate_zero _ _

theorem pad2_digits (n : ℕ) : ∀ c ∈ pad2 n, isDigitCh c = true := by
  rw [pad2]
  exact padZeros_digits (natToChars_eq n ▸ natDigits_digits n)

theorem pad3_digits (n : ℕ) : ∀ c ∈ pad3 n, isDigitCh c = true := by
  rw [pad3]
  exact padZeros_digits (natToChars_eq n ▸ natDigits_digits n)

theorem pad2_ne_nil (n : ℕ) : pad2 n ≠ [] :=
  padZeros_ne_nil (natToChars_eq n ▸ natDigits_ne_nil n)

theorem pad3_ne_nil (n : ℕ) : pad3 n ≠ [] :=
  padZeros_ne_nil (natToChars_eq n ▸ natDigits_ne_nil n)

theorem digitsVal_pad2 (n : ℕ) : digitsVal (pad2 n) = n := by
  rw [pad2, digitsVal_padZeros, natToChars_eq, digitsVal_natDigits]

theorem digitsVal_pad3 (n : ℕ) : digitsVal (pad3 n) = n := by
  rw [pad3, digitsVal_padZeros, natToChars_eq, digitsVal_natDigits]

/-! ## Lemmas: strip and split on clean strings -/

theorem dropWhile_eq_self_of {p : Char → Bool} {l : List Char}
    (h : ∀ c ∈ l, p c = false) : l.dropWhile p = l := by
  cases l with
  | nil => rfl
  | cons a as =>
    rw [List.dropWhile_cons, h a (List.mem_cons_self a as)]
    simp

theorem stripChars_eq_self {l : List Char} (h : ∀ c ∈ l, isSpaceCh c = false) :
    stripChars l = l := by
  rw [stripChars, dropWhile_eq_self_of h, dropWhile_eq_self_of, List.reverse_reverse]
  intro c hc
  exact h c (List.mem_reverse.1 hc)

theorem not_mem_cons_parts {c a : Char} {as : List Char} (h : c ∉ a :: as) :
    ¬ a = c ∧ c ∉ as := by
  simp only [List.mem_cons, not_or] at h
  exact ⟨fun e => h.1 e.symm, h.2⟩

theorem splitOnce_eq_none {c : Char} {l : List Char} (h : c ∉ l) :
    splitOnce c l = none := by
  induction l with
  | nil => rfl
  | cons a as ih =>
    obtain ⟨h1, h2⟩ := not_mem_cons_parts h
    rw [splitOnce, if_neg h1, ih h2]

theorem splitOnce_append {c : Char} {x y : List Char} (h : c ∉ x) :
    splitOnce c (x ++ c :: y) = some (x, y) := by
  induction x with
  | nil => simp [splitOnce]
  | cons a as ih =>
    obtain ⟨h1, h2⟩ := not_mem_cons_parts h
    rw [List.cons_append, splitOnce, if_neg h1, ih h2]

theorem splitList_no_sep {c : Char} {l : List Char} (h : c ∉ l) :
    splitList c l = [l] := by
  induction l with
  | nil => rfl
  | cons a as ih =>
    obtain ⟨h1, h2⟩ := not_mem_cons_parts h
    rw [splitList]
    simp only [ih h2, if_neg h1]

theorem splitList_append {c : Char} {x y : List Char} (h : c ∉ x) :
    splitList c (x ++ c :: y) = x :: splitList c y := by
  induction x with
  | nil =>
    simp only [List.nil_append, splitList, if_pos rfl, if_true, eq_self_iff_true]
  | cons a as ih =>
    obtain ⟨h1, h2⟩ := not_mem_cons_parts h
    rw [List.cons_append, splitList]
    simp only [ih h2, if_neg h1]

/-! ## Lemmas: int() and float() on rendered digit strings -/

theorem ne_of_head? {l m : List Char} (h : l.head? ≠ m.head?) : l ≠ m :=
  fun e => h (e ▸ rfl)

theorem map_id_of_fixed {f : Char → Char} {l : List Char} (h : ∀ c ∈ l, f c = c) :
    l.map f = l := by
  induction l with
  | nil => rfl
  | cons a as ih =>
    rw [List.map_cons, h a (List.mem_cons_self a as),
      ih (fun c hc => h c (List.mem_cons_of_mem a hc))]

theorem head?_of_ne_nil {l : List Char} (h : l ≠ []) : l.head? = some (l.headI) := by
  cases l with
  | nil => exact absurd rfl h
  | cons a as => rfl

theorem headI_mem {l : List Char} (h : l ≠ []) : l.headI ∈ l := by
  cases l with
  | nil => exact absurd rfl h
  | cons a as => exact List.mem_cons_self a as

theorem parseDigits_of {l : List Char} (hne : l ≠ []) (hd : ∀ c ∈ l, isDigitCh c = true) :
    parseDigits l = some (digitsVal l) := by
  rw [parseDigits, if_pos ⟨hne, List.all_eq_true.2 hd⟩]

theorem parseSignedDigits_of {l : List Char} (hne : l ≠ [])
    (hd : ∀ c ∈ l, isDigitCh c = true) :
    parseSignedDigits l = some ((digitsVal l : ℤ)) := by
  have hh := head?_of_ne_nil hne
  have hdig := hd _ (headI_mem hne)
  rw [parseSignedDigits, if_neg, if_neg]
  · rw [parseDigits_of hne hd]
    rfl
  · rw [hh]
    intro e
    exact digit_ne_minus hdig (Option.some.inj e)
  · rw [hh]
    intro e
    exact digit_ne_plus hdig (Option.some.inj e)

theorem stripChars_digits {l : List Char} (hd : ∀ c ∈ l, isDigitCh c = true) :
    stripChars l = l :=
  stripChars_eq_self (fun c hc => isSpaceCh_digit (hd c hc))

theorem pyIntChars_of {l : List Char} (hne : l ≠ [])
    (hd : ∀ c ∈ l, isDigitCh c = true) :
    pyIntChars l = some ((digitsVal l : ℤ)) := by
  rw [pyIntChars, stripChars_digits hd, parseSignedDigits_of hne hd]

theorem parseMantissa_digits {l : List Char} (hne : l ≠ [])
    (hd : ∀ c ∈ l, isDigitCh c = true) :
    parseMantissa l = some ((digitsVal l : ℚ)) := by
  rw [parseMantissa, splitOnce_eq_none (fun hm => digit_ne_dot (hd _ hm) rfl),
    if_pos ⟨hne, List.all_eq_true.2 hd⟩]

theorem parseMantissa_frac {l1 l2 : List Char} (hne : l1 ≠ [])
    (hd1 : ∀ c ∈ l1, isDigitCh c = true) (hd2 : ∀ c ∈ l2, isDigitCh c = true) :
    parseMantissa (l1 ++ '.' :: l2)
      = some ((digitsVal l1 : ℚ) + (digitsVal l2 : ℚ) / 10 ^ l2.length) := by
  rw [parseMantissa, splitOnce_append (fun hm => digit_ne_dot (hd1 _ hm) rfl)]
  show (if (l1 ≠ [] ∨ l2 ≠ []) ∧ allDigits l1 = true ∧ allDigits l2 = true then
      some ((digitsVal l1 : ℚ) + (digitsVal l2 : ℚ) / 10 ^ l2.length)
    else none) = _
  rw [if_pos ⟨Or.inl hne, List.all_eq_true.2 hd1, List.all_eq_true.2 hd2⟩]

theorem parseFiniteFloat_digits {l : List Char} (hne : l ≠ [])
    (hd : ∀ c ∈ l, isDigitCh c = true) :
    parseFiniteFloat l = some ((digitsVal l : ℚ)) := by
  rw [parseFiniteFloat, splitOnce_eq_none (fun hm => digit_ne_e (hd _ hm) rfl),
    parseMantissa_digits hne hd]

theorem parseFiniteFloat_frac {l1 l2 : List Char} (hne : l1 ≠ [])
    (hd1 : ∀ c ∈ l1, isDigitCh c = true) (hd2 : ∀ c ∈ l2, isDigitCh c = true) :
    parseFiniteFloat (l1 ++ '.' :: l2)
      = some ((digitsVal l1 : ℚ) + (digitsVal l2 : ℚ) / 10 ^ l2.length) := by
  have he : 'e' ∉ l1 ++ '.' :: l2 := by
    intro hm
    rcases List.mem_append.1 hm with hm | hm
    · exact digit_ne_e (hd1 _ hm) rfl
    · rcases List.mem_cons.1 hm with hm | hm
      · exact absurd hm.symm (by decide)
      · exact digit_ne_e (hd2 _ hm) rfl
  rw [parseFiniteFloat, splitOnce_eq_none he, parseMantissa_frac hne hd1 hd2]

theorem digit_or_dot_clean {l : List Char}
    (hd : ∀ c ∈ l, isDigitCh c = true ∨ c = '.') :
    stripChars l = l ∧ l.map toLowerCh = l := by
  constructor
  · refine stripChars_eq_self (fun c hc => ?_)
    rcases hd c hc with h | rfl
    · exact isSpaceCh_digit h
    · decide
  · refine map_id_of_fixed (fun c hc => ?_)
    rcases hd c hc with h | rfl
    · exact toLowerCh_digit h
    · decide

theorem pyFloatChars_generic {l : List Char} {q : ℚ} (hne : l ≠ [])
    (hclean : ∀ c ∈ l, isDigitCh c = true ∨ c = '.')
    (hhead : isDigitCh l.headI = true)
    (hfin : parseFiniteFloat l = some q) :
    pyFloatChars l = some (.finite q) := by
  obtain ⟨hstrip, hmap⟩ := digit_or_dot_clean hclean
  have hh := head?_of_ne_nil hne
  have h1 : ¬ (l.head? = some '+' ∨ l.head? = some '-') := by
    rw [hh]
    rintro (e | e)
    · exact digit_ne_plus hhead (Option.some.inj e)
    · exact digit_ne_minus hhead (Option.some.inj e)
  have h2 : ¬ (l = "inf".data ∨ l = "infinity".data) := by
    rintro (e | e) <;>
      exact digit_ne_i hhead (Option.some.inj (by rw [← hh, e]; rfl))
  have h3 : ¬ l = "nan".data :=
    fun e => digit_ne_n hhead (Option.some.inj (by rw [← hh, e]; rfl))
  have hnegf : (decide (l.head? = some '-')) = false := by
    rw [hh]
    exact decide_eq_false (fun e => digit_ne_minus hhead (Option.some.inj e))
  rw [pyFloatChars]
  simp only [hstrip, hmap, if_neg h1, if_neg h2, if_neg h3, hfin, hnegf,
    Bool.false_eq_true, if_false]
  rfl

theorem pyFloatChars_of {l : List Char} (hne : l ≠ [])
    (hd : ∀ c ∈ l, isDigitCh c = true) :
    pyFloatChars l = some (.finite ((digitsVal l : ℚ))) := by
  refine pyFloatChars_generic hne (fun c hc => Or.inl (hd c hc))
    (hd _ (headI_mem hne)) (parseFiniteFloat_digits hne hd)

theorem pyFloatChars_frac {l1 l2 : List Char} (hne : l1 ≠ [])
    (hd1 : ∀ c ∈ l1, isDigitCh c = true) (hd2 : ∀ c ∈ l2, isDigitCh c = true) :
    pyFloatChars (l1 ++ '.' :: l2)
      = some (.finite ((digitsVal l1 : ℚ) + (digitsVal l2 : ℚ) / 10 ^ l2.length)) := by
  have hne2 : l1 ++ '.' :: l2 ≠ [] := by
    intro h
    exact hne (List.append_eq_nil.1 h).1
  have hclean : ∀ c ∈ l1 ++ '.' :: l2, isDigitCh c = true ∨ c = '.' := by
    intro c hc
    rcases List.mem_append.1 hc with hc | hc
    · exact Or.inl (hd1 c hc)
    · rcases List.mem_cons.1 hc with rfl | hc
      · exact Or.inr rfl
      · exact Or.inl (hd2 c hc)
  have hhead : (l1 ++ '.' :: l2).headI = l1.headI := by
    cases l1 with
    | nil => exact absurd rfl hne
    | cons a as => rfl
  refine pyFloatChars_generic hne2 hclean ?_ (parseFiniteFloat_frac hne hd1 hd2)
  rw [hhead]
  exact hd1 _ (headI_mem hne)

/-! ## Lemmas: parsing a formatted timestamp -/

theorem timestampFromParts_three {h m : ℕ} (hm : m < 60) {sv : ℚ} (hs0 : 0 ≤ sv)
    (hs60 : sv < 60) {c : List Char} (hc : pyFloatChars c = some (.finite sv)) :
    timestampFromParts [pad2 h, pad2 m, c]
      = some (.finite ((h : ℚ) * 3600 + (m : ℚ) * 60 + sv)) := by
  have hih : pyIntChars (pad2 h) = some ((h : ℤ)) := by
    rw [pyIntChars_of (pad2_ne_nil h) (pad2_digits h), digitsVal_pad2]
  have him : pyIntChars (pad2 m) = some ((m : ℤ)) := by
    rw [pyIntChars_of (pad2_ne_nil m) (pad2_digits m), digitsVal_pad2]
  have e1 : decide ((h : ℤ) < 0) = false :=
    decide_eq_false (not_lt.2 (Int.natCast_nonneg h))
  have e2 : decide ((m : ℤ) < 0) = false :=
    decide_eq_false (not_lt.2 (Int.natCast_nonneg m))
  have e3 : decide ((60 : ℤ) ≤ (m : ℤ)) = false := by
    refine decide_eq_false (not_le.2 ?_)
    exact_mod_cast hm
  have e4 : pyLt (.finite sv) (.finite 0) = false := by
    simp only [pyLt, decide_eq_false_iff_not, not_lt]
    exact hs0
  have e5 : pyGe (.finite sv) (.finite 60) = false := by
    simp only [pyGe, pyLe, decide_eq_false_iff_not, not_le]
    exact hs60
  rw [timestampFromParts]
  simp only [hih, him, hc, Option.bind_eq_bind, Option.some_bind, e1, e2, e3, e4, e5,
    Bool.or_self, Bool.or_false, Bool.false_eq_true, if_false]
  rfl

theorem colon_not_in_pad2 (n : ℕ) : ':' ∉ pad2 n :=
  fun hm => digit_ne_colon (pad2_digits n _ hm) rfl

theorem parse_formatMs (t : ℕ) :
    parseTimestampChars (formatMs t) = some (.finite ((t : ℚ) / 1000)) := by
  have hmslt : t % 1000 < 1000 := Nat.mod_lt _ (by norm_num)
  have hmlt : t / 1000 % 3600 / 60 < 60 := by omega
  have hslt : t / 1000 % 60 < 60 := by omega
  by_cases hms : t % 1000 = 0
  · -- no fractional part
    have hchars : formatMs t = pad2 (t / 1000 / 3600) ++ ':' ::
        (pad2 (t / 1000 % 3600 / 60) ++ ':' :: pad2 (t / 1000 % 60)) := by
      rw [formatMs, if_pos hms]
      simp only [List.append_assoc, List.cons_append]
    have hclean : ∀ c ∈ formatMs t, isSpaceCh c = false := by
      rw [hchars]
      intro c hc
      simp only [List.mem_append, List.mem_cons] at hc
      rcases hc with hc | rfl | hc | rfl | hc
      · exact isSpaceCh_digit (pad2_digits _ _ hc)
      · decide
      · exact isSpaceCh_digit (pad2_digits _ _ hc)
      · decide
      · exact isSpaceCh_digit (pad2_digits _ _ hc)
    have hne : formatMs t ≠ [] := by
      rw [hchars]
      intro h
      exact pad2_ne_nil _ (List.append_eq_nil.1 h).1
    have hsv : pyFloatChars (pad2 (t / 1000 % 60))
        = some (.finite ((t / 1000 % 60 : ℕ) : ℚ)) := by
      rw [pyFloatChars_of (pad2_ne_nil _) (pad2_digits _), digitsVal_pad2]
    have hs0 : (0 : ℚ) ≤ ((t / 1000 % 60 : ℕ) : ℚ) := Nat.cast_nonneg _
    have hs60 : ((t / 1000 % 60 : ℕ) : ℚ) < 60 := by exact_mod_cast hslt
    rw [parseTimestampChars]
    simp only [stripChars_eq_self hclean]
    rw [if_neg hne, hchars, splitList_append (colon_not_in_pad2 _),
      splitList_append (colon_not_in_pad2 _), splitList_no_sep (colon_not_in_pad2 _),
      timestampFromParts_three hmlt hs0 hs60 hsv]
    simp only [Option.some.injEq, PyFloat.finite.injEq]
    have e : (t / 1000 / 3600 * 3600 + t / 1000 % 3600 / 60 * 60 + t / 1000 % 60) * 1000
        = t := by omega
    have e2 : (((t / 1000 / 3600 * 3600 + t / 1000 % 3600 / 60 * 60 + t / 1000 % 60) * 1000 : ℕ) : ℚ)
        = (t : ℚ) := by exact_mod_cast congrArg (fun n : ℕ => (n : ℚ)) e
    push_cast at e2
    linarith
  · -- fractional part present
    have hchars : formatMs t = pad2 (t / 1000 / 3600) ++ ':' ::
        (pad2 (t / 1000 % 3600 / 60) ++ ':' ::
          (pad2 (t / 1000 % 60) ++ '.' :: pad3 (t % 1000))) := by
      rw [formatMs, if_neg hms]
      simp [List.append_assoc, List.cons_append]
    have hclean : ∀ c ∈ formatMs t, isSpaceCh c = false := by
      rw [hchars]
      intro c hc
      simp only [List.mem_append, List.mem_cons] at hc
      rcases hc with hc | rfl | hc | rfl | hc | rfl | hc
      · exact isSpaceCh_digit (pad2_digits _ _ hc)
      · decide
      · exact isSpaceCh_digit (pad2_digits _ _ hc)
      · decide
      · exact isSpaceCh_digit (pad2_digits _ _ hc)
      · decide
      · exact isSpaceCh_digit (pad3_digits _ _ hc)
    have hne : formatMs t ≠ [] := by
      rw [hchars]
      intro h
      exact pad2_ne_nil _ (List.append_eq_nil.1 h).1
    have hnocolon3 : ':' ∉ pad2 (t / 1000 % 60) ++ '.' :: pad3 (t % 1000) := by
      intro hm
      simp only [List.mem_append, List.mem_cons] at hm
      rcases hm with hm | hm | hm
      · exact digit_ne_colon (pad2_digits _ _ hm) rfl
      · exact absurd hm.symm (by decide)
      · exact digit_ne_colon (pad3_digits _ _ hm) rfl
    have hlen3 : (pad3 (t % 1000)).length = 3 := by
      rw [pad3, padZeros, List.length_append, List.length_replicate]
      have : (natToChars (t % 1000)).length ≤ 3 := by
        rw [natToChars_eq]
        exact natDigits_length_le (by norm_num) (by omega)
      omega
    have hsv : pyFloatChars (pad2 (t / 1000 % 60) ++ '.' :: pad3 (t % 1000))
        = some (.finite ((t / 1000 % 60 : ℕ) + ((t % 1000 : ℕ) : ℚ) / 1000)) := by
      rw [pyFloatChars_frac (pad2_ne_nil _) (pad2_digits _) (pad3_digits _),
        digitsVal_pad2, digitsVal_pad3, hlen3]
      norm_num
    have hs0 : (0 : ℚ) ≤ (t / 1000 % 60 : ℕ) + ((t % 1000 : ℕ) : ℚ) / 1000 := by
      positivity
    have hs60 : ((t / 1000 % 60 : ℕ) : ℚ) + ((t % 1000 : ℕ) : ℚ) / 1000 < 60 := by
      have h1 : ((t / 1000 % 60 : ℕ) : ℚ) ≤ 59 := by exact_mod_cast Nat.lt_succ_iff.1 hslt
      have h2 : ((t % 1000 : ℕ) : ℚ) < 1000 := by exact_mod_cast hmslt
      have h3 : ((t % 1000 : ℕ) : ℚ) / 1000 < 1 := by linarith
      linarith
    rw [parseTimestampChars]
    simp only [stripChars_eq_self hclean]
    rw [if_neg hne, hchars, splitList_append (colon_not_in_pad2 _),
      splitList_append (colon_not_in_pad2 _), splitList_no_sep hnocolon3,
      timestampFromParts_three hmlt hs0 hs60 hsv]
    simp only [Option.some.injEq, PyFloat.finite.injEq]
    have e : (t / 1000 / 3600 * 3600 + t / 1000 % 3600 / 60 * 60 + t / 1000 % 60) * 1000
        + t % 1000 = t := by omega
    have e2 : (((t / 1000 / 3600 * 3600 + t / 1000 % 3600 / 60 * 60 + t / 1000 % 60) * 1000
        + t % 1000 : ℕ) : ℚ) = (t : ℚ) := by
      exact_mod_cast congrArg (fun n : ℕ => (n : ℚ)) e
    push_cast at e2
    linarith

/-! ## Lemmas: Python rounding -/

theorem pyRound_nonneg {q : ℚ} (h : 0 ≤ q) : 0 ≤ pyRound q := by
  have hf : (0 : ℤ) ≤ ⌊q⌋ := Int.floor_nonneg.2 h
  rw [pyRound]
  split
  · exact hf
  · split
    · omega
    · split
      · exact hf
      · omega

theorem pyRound_tie (k : ℤ) : pyRound ((k : ℚ) + 1 / 2) = if Even k then k else k + 1 := by
  have hfl : ⌊(k : ℚ) + 1 / 2⌋ = k := by
    rw [Int.floor_eq_iff]
    constructor
    · linarith
    · push_cast
      linarith
  rw [pyRound]
  simp only [hfl]
  rw [if_neg (by simp only [add_sub_cancel_left]; norm_num),
    if_neg (by simp only [add_sub_cancel_left]; norm_num)]

theorem pyRound_intCast (z : ℤ) : pyRound ((z : ℚ)) = z := by
  rw [pyRound]
  simp only [Int.floor_intCast, sub_self]
  norm_num

theorem roundHalfUp_tie (k : ℤ) : roundHalfUp ((k : ℚ) + 1 / 2) = k + 1 := by
  rw [roundHalfUp]
  have : (k : ℚ) + 1 / 2 + 1 / 2 = ((k + 1 : ℤ) : ℚ) := by
    push_cast
    ring
  rw [this, Int.floor_intCast]

/-- C9: for every valid non-negative seconds value v, parsing the
formatted timestamp gives back exactly round(v * 1000) / 1000, where
round is the rounding of the source (Python round, half to even); in
particular the round trip is exact to millisecond precision. -/
theorem c9_parse_format_round_trip (v : ℚ) (hv : 0 ≤ v) :
    parse_timestamp_to_seconds (format_seconds_to_timestamp v)
      = some (.finite ((pyRound (v * 1000) : ℚ) / 1000)) := by
  have h0 : 0 ≤ pyRound (v * 1000) := pyRound_nonneg (by positivity)
  rw [format_seconds_to_timestamp, if_neg (not_lt.2 hv), parse_timestamp_to_seconds]
  show parseTimestampChars (formatMs (pyRound (v * 1000)).toNat) = _
  rw [parse_formatMs]
  have hcast : (((pyRound (v * 1000)).toNat : ℕ) : ℚ) = ((pyRound (v * 1000) : ℤ) : ℚ) := by
    exact_mod_cast congrArg (fun z : ℤ => (z : ℚ)) (Int.toNat_of_nonneg h0)
  rw [hcast]

/-- Witness for C9 at the concrete value seven halves: the formatted
text parses back to seven halves exactly. -/
theorem c9_parse_format_round_trip_witness :
    (0 : ℚ) ≤ 7 / 2 ∧ parse_timestamp_to_seconds (format_seconds_to_timestamp (7 / 2))
      = some (.finite (7 / 2)) := by
  refine ⟨by norm_num, ?_⟩
  rw [c9_parse_format_round_trip (7 / 2) (by norm_num),
    show ((7 : ℚ) / 2 * 1000) = ((3500 : ℤ) : ℚ) by norm_num, pyRound_intCast]
  norm_num

/-! ## C8: formatting rounds half to even, not half up -/

theorem dot_mem_formatMs (t : ℕ) : ('.' ∈ formatMs t) ↔ t % 1000 ≠ 0 := by
  by_cases hz : t % 1000 = 0
  · have hchars : formatMs t = pad2 (t / 1000 / 3600) ++ ':' ::
        (pad2 (t / 1000 % 3600 / 60) ++ ':' :: pad2 (t / 1000 % 60)) := by
      rw [formatMs, if_pos hz]
      simp only [List.append_assoc, List.cons_append]
    rw [hchars]
    simp only [hz, ne_eq, not_true_eq_false, iff_false]
    intro hm
    simp only [List.mem_append, List.mem_cons] at hm
    rcases hm with hm | hm | hm | hm | hm
    · exact digit_ne_dot (pad2_digits _ _ hm) rfl
    · exact absurd hm (by decide)
    · exact digit_ne_dot (pad2_digits _ _ hm) rfl
    · exact absurd hm (by decide)
    · exact digit_ne_dot (pad2_digits _ _ hm) rfl
  · have hchars : formatMs t = pad2 (t / 1000 / 3600) ++ ':' ::
        (pad2 (t / 1000 % 3600 / 60) ++ ':' ::
          (pad2 (t / 1000 % 60) ++ '.' :: pad3 (t % 1000))) := by
      rw [formatMs, if_neg hz]
      simp only [List.append_assoc, List.cons_append]
    rw [hchars]
    simp [hz]

/-- C8 counterexample: at ten and one sixteenth seconds the product
with one thousand is exactly 10062 + 1/2; the claimed round half up
gives 10063 milliseconds, but the source rounds half to even and emits
the millisecond field 062, not 063. -/
theorem c8_round_half_up_counterexample :
    (161 / 16 : ℚ) * 1000 = ((10062 : ℤ) : ℚ) + 1 / 2 ∧
    roundHalfUp ((161 / 16 : ℚ) * 1000) = 10063 ∧
    pyRound ((161 / 16 : ℚ) * 1000) = 10062 ∧
    format_seconds_to_timestamp (161 / 16) = "00:00:10.062" := by
  have he : (161 / 16 : ℚ) * 1000 = ((10062 : ℤ) : ℚ) + 1 / 2 := by norm_num
  have heven : Even (10062 : ℤ) := ⟨5031, by norm_num⟩
  have hr : pyRound ((161 / 16 : ℚ) * 1000) = 10062 := by
    rw [he, pyRound_tie, if_pos heven]
  refine ⟨he, ?_, hr, ?_⟩
  · rw [he, roundHalfUp_tie]
    norm_num
  · rw [format_seconds_to_timestamp, if_neg (by norm_num), hr]
    rfl

/-- C8 amended: format renders HH:MM:SS and appends a millisecond part
exactly when the rounded millisecond remainder is non-zero, and the
rounding of seconds times one thousand is round half to even (a value
whose product is exactly k + 1/2 rounds to k when k is even and to
k + 1 when k is odd), not round half up. -/
theorem c8_format_half_even (sec : ℚ) (hsec : 0 ≤ sec) :
    (('.' ∈ (format_seconds_to_timestamp sec).data) ↔ pyRound (sec * 1000) % 1000 ≠ 0) ∧
    (∀ k : ℤ, sec * 1000 = (k : ℚ) + 1 / 2 →
      pyRound (sec * 1000) = if Even k then k else k + 1) := by
  constructor
  · have h0 : 0 ≤ pyRound (sec * 1000) := pyRound_nonneg (by positivity)
    rw [format_seconds_to_timestamp, if_neg (not_lt.2 hsec)]
    show ('.' ∈ formatMs (pyRound (sec * 1000)).toNat) ↔ _
    rw [dot_mem_formatMs]
    omega
  · intro k hk
    rw [hk, pyRound_tie]

/-- Witness for C8 amended at ten and one sixteenth seconds: the
rounded remainder is non-zero and a millisecond part is present. -/
theorem c8_format_half_even_witness :
    (0 : ℚ) ≤ 161 / 16 ∧ pyRound ((161 / 16 : ℚ) * 1000) % 1000 ≠ 0 ∧
    '.' ∈ (format_seconds_to_timestamp (161 / 16)).data := by
  have h := c8_format_half_even (161 / 16) (by norm_num)
  have htie := h.2 10062 (by norm_num)
  have hr : pyRound ((161 / 16 : ℚ) * 1000) = 10062 := by
    rw [htie, if_pos ⟨5031, by norm_num⟩]
  have hmod : pyRound ((161 / 16 : ℚ) * 1000) % 1000 ≠ 0 := by
    rw [hr]
    decide
  exact ⟨by norm_num, hmod, h.1.2 hmod⟩

/-! ## C4: the minutes field of MM:SS is range-checked even though it
is the most-significant field -/

theorem twoField_reject_ge60 {mc sc : List Char} {m : ℤ} {s : PyFloat}
    (hm : pyIntChars mc = some m) (hs : pyFloatChars sc = some s) (h60 : 60 ≤ m) :
    timestampFromParts [mc, sc] = none := by
  have e : decide ((60 : ℤ) ≤ m) = true := decide_eq_true h60
  rw [timestampFromParts]
  simp only [hm, hs, Option.bind_eq_bind, Option.some_bind, e, Bool.or_true,
    Bool.true_or, if_true]

theorem twoField_accept {mc sc : List Char} {m : ℤ} {q : ℚ}
    (hm : pyIntChars mc = some m) (hs : pyFloatChars sc = some (.finite q))
    (hm0 : 0 ≤ m) (hm60 : m < 60) (hq0 : 0 ≤ q) (hq60 : q < 60) :
    timestampFromParts [mc, sc] = some (.finite ((m : ℚ) * 60 + q)) := by
  have e1 : decide (m < 0) = false := decide_eq_false (not_lt.2 hm0)
  have e2 : decide ((60 : ℤ) ≤ m) = false := decide_eq_false (not_le.2 hm60)
  have e3 : pyLt (.finite q) (.finite 0) = false := by
    simp only [pyLt, decide_eq_false_iff_not, not_lt]
    exact hq0
  have e4 : pyGe (.finite q) (.finite 60) = false := by
    simp only [pyGe, pyLe, decide_eq_false_iff_not, not_le]
    exact hq60
  rw [timestampFromParts]
  simp only [hm, hs, Option.bind_eq_bind, Option.some_bind, e1, e2, e3, e4,
    Bool.or_self, Bool.or_false, Bool.false_eq_true, if_false]
  rfl

theorem pyIntChars_59 : pyIntChars "59".data = some ((59 : ℤ)) := by
  rw [pyIntChars_of (by decide) (by decide)]
  norm_num [show digitsVal "59".data = 59 from by decide]

theorem pyFloatChars_30 : pyFloatChars "30".data = some (.finite ((30 : ℚ))) := by
  rw [pyFloatChars_of (by decide) (by decide)]
  norm_num [show digitsVal "30".data = 30 from by decide]

/-- C4 counterexample: the claim predicts that sixty minutes parses in
two-field form and yields 3630 seconds; the source rejects it, while
fifty-nine minutes is accepted. -/
theorem c4_two_field_counterexample :
    parse_timestamp_to_seconds "60:30" = none ∧
    parse_timestamp_to_seconds "59:30" = some (.finite 3570) := by
  constructor
  · decide
  · have h := twoField_accept pyIntChars_59 pyFloatChars_30
      (by norm_num) (by norm_num) (by norm_num) (by norm_num)
    rw [show parse_timestamp_to_seconds "59:30"
        = timestampFromParts ["59".data, "30".data] from rfl, h]
    norm_num

/-- C4 amended: in two-field MM:SS form the minutes field is
constrained to be below sixty even though it is the most-significant
field: any parsed minutes value of at least sixty is rejected, and for
minutes and seconds both in the interval from zero below sixty the
result is minutes times sixty plus seconds. -/
theorem c4_two_field_minutes_range :
    (∀ (mc sc : List Char) (m : ℤ) (s : PyFloat),
      pyIntChars mc = some m → pyFloatChars sc = some s → 60 ≤ m →
      timestampFromParts [mc, sc] = none) ∧
    (∀ (mc sc : List Char) (m : ℤ) (q : ℚ),
      pyIntChars mc = some m → pyFloatChars sc = some (.finite q) →
      0 ≤ m → m < 60 → 0 ≤ q → q < 60 →
      timestampFromParts [mc, sc] = some (.finite ((m : ℚ) * 60 + q))) :=
  ⟨fun _ _ _ _ hm hs h60 => twoField_reject_ge60 hm hs h60,
   fun _ _ _ _ hm hs hm0 hm60 hq0 hq60 => twoField_accept hm hs hm0 hm60 hq0 hq60⟩

/-- Witness for C4 amended: sixty minutes is rejected and fifty-nine
minutes thirty seconds parses to fifty-nine times sixty plus thirty. -/
theorem c4_two_field_minutes_range_witness :
    timestampFromParts ["60".data, "30".data] = none ∧
    timestampFromParts ["59".data, "30".data] = some (.finite ((59 : ℚ) * 60 + 30)) := by
  constructor
  · refine c4_two_field_minutes_range.1 "60".data "30".data 60 (.finite 30) ?_
      pyFloatChars_30 (by norm_num)
    rw [pyIntChars_of (by decide) (by decide)]
    norm_num [show digitsVal "60".data = 60 from by decide]
  · exact c4_two_field_minutes_range.2 "59".data "30".data 59 30
      pyIntChars_59 pyFloatChars_30 (by norm_num) (by norm_num) (by norm_num) (by norm_num)

/-! ## C10: non-clock inputs accepted by the float grammar -/

/-- C10: the seconds field is read with general floating-point syntax,
so exponent notation, inf and nan all parse instead of raising; a nan
start timestamp also passes the start at or after end check of the
segment builder, because every comparison with nan is false, and a
segment carrying nan is emitted. -/
theorem c10_nonclock_timestamps :
    parse_timestamp_to_seconds "1e3" = some (.finite 1000) ∧
    parse_timestamp_to_seconds "inf" = some .inf ∧
    parse_timestamp_to_seconds "nan" = some .nan ∧
    pyGe .nan (.finite 5) = false ∧
    core_build_segments_from_entries [⟨1, "nan", "start"⟩, ⟨2, "5", "end"⟩]
      = .ok [⟨1, 1, 2, "nan", "5", .nan, .finite 5⟩] := by
  refine ⟨?_, by decide, by decide, rfl, by decide⟩
  have hff : parseFiniteFloat "1e3".data = some (qShift ((1 : ℕ) : ℚ) ((3 : ℕ) : ℤ)) := rfl
  have hq : qShift ((1 : ℕ) : ℚ) ((3 : ℕ) : ℤ) = 1000 := by
    rw [qShift, if_pos (by norm_num), show Int.toNat ((3 : ℕ) : ℤ) = 3 from rfl]
    norm_num
  have hf : pyFloatChars "1e3".data = some (.finite 1000) := by
    rw [show pyFloatChars "1e3".data
        = (parseFiniteFloat "1e3".data).map (fun q => PyFloat.finite q) from rfl, hff, hq]
    rfl
  rw [show parse_timestamp_to_seconds "1e3"
      = (pyFloatChars "1e3".data).bind
          (fun s => if pyLt s (.finite 0) = true then none else some s) from rfl, hf]
  simp only [Option.some_bind]
  rw [if_neg]
  simp only [pyLt, decide_eq_true_eq, not_lt]
  norm_num

/-! ## Lemmas: list access utilities -/

theorem getD_get? (l : List ℚ) (n : ℕ) : l.getD n 0 = (l.get? n).getD 0 := by
  induction l generalizing n with
  | nil => cases n <;> rfl
  | cons a as ih =>
    cases n with
    | zero => rfl
    | succ n => exact ih n

theorem getLast?_get? (l : List ℚ) : l.getLast? = l.get? (l.length - 1) := by
  induction l with
  | nil => rfl
  | cons a as ih =>
    cases as with
    | nil => rfl
    | cons b bs =>
      rw [List.getLast?_cons_cons, ih]
      rfl

theorem sorted_getD {a : List ℚ} (hs : List.Pairwise (· ≤ ·) a) {i j : ℕ}
    (hij : i ≤ j) (hj : j < a.length) : a.getD i 0 ≤ a.getD j 0 := by
  rcases eq_or_lt_of_le hij with rfl | hlt
  · exact le_refl _
  · have hi : i < a.length := lt_trans hlt hj
    rw [getD_get?, getD_get?, List.get?_eq_get hi, List.get?_eq_get hj]
    exact List.pairwise_iff_get.1 hs ⟨i, hi⟩ ⟨j, hj⟩ hlt

/-! ## Lemmas: bisect search specification on sorted lists -/

theorem bisectLeftAux_spec {a : List ℚ} {x : ℚ} (hs : List.Pairwise (· ≤ ·) a) :
    ∀ fuel lo hi, hi - lo ≤ fuel → lo ≤ hi → hi ≤ a.length →
    (∀ i, i < lo → a.getD i 0 < x) → (∀ i, hi ≤ i → i < a.length → x ≤ a.getD i 0) →
    lo ≤ bisectLeftAux a x fuel lo hi ∧ bisectLeftAux a x fuel lo hi ≤ hi ∧
    (∀ i, i < bisectLeftAux a x fuel lo hi → a.getD i 0 < x) ∧
    (∀ i, bisectLeftAux a x fuel lo hi ≤ i → i < a.length → x ≤ a.getD i 0) := by
  intro fuel
  induction fuel with
  | zero =>
    intro lo hi hfuel hlohi hlen hlow hhigh
    have : lo = hi := by omega
    subst this
    exact ⟨le_refl _, le_refl _, hlow, hhigh⟩
  | succ fuel ih =>
    intro lo hi hfuel hlohi hlen hlow hhigh
    rw [bisectLeftAux]
    by_cases hlh : lo < hi
    · rw [if_pos hlh]
      have hmidlo : lo ≤ (lo + hi) / 2 := by omega
      have hmidhi : (lo + hi) / 2 < hi := by omega
      by_cases hcmp : a.getD ((lo + hi) / 2) 0 < x
      · rw [if_pos hcmp]
        have hlow2 : ∀ i, i < (lo + hi) / 2 + 1 → a.getD i 0 < x := by
          intro i hi2
          exact lt_of_le_of_lt
            (sorted_getD hs (by omega) (lt_of_lt_of_le hmidhi hlen)) hcmp
        obtain ⟨h1, h2, h3, h4⟩ := ih ((lo + hi) / 2 + 1) hi (by omega) (by omega) hlen
          hlow2 hhigh
        exact ⟨by omega, h2, h3, h4⟩
      · rw [if_neg hcmp]
        have hhigh2 : ∀ i, (lo + hi) / 2 ≤ i → i < a.length → x ≤ a.getD i 0 := by
          intro i hi1 hi2
          exact le_trans (not_lt.1 hcmp) (sorted_getD hs hi1 hi2)
        obtain ⟨h1, h2, h3, h4⟩ := ih lo ((lo + hi) / 2) (by omega) (by omega) (by omega)
          hlow hhigh2
        exact ⟨h1, by omega, h3, h4⟩
    · rw [if_neg hlh]
      have : lo = hi := by omega
      subst this
      exact ⟨le_refl _, le_refl _, hlow, hhigh⟩

theorem bisect_left_spec {a : List ℚ} {x : ℚ} (hs : List.Pairwise (· ≤ ·) a) :
    bisect_left a x ≤ a.length ∧
    (∀ i, i < bisect_left a x → a.getD i 0 < x) ∧
    (∀ i, bisect_left a x ≤ i → i < a.length → x ≤ a.getD i 0) := by
  obtain ⟨h1, h2, h3, h4⟩ := bisectLeftAux_spec hs a.length 0 a.length (by omega)
    (Nat.zero_le _) (le_refl _) (by omega) (by omega)
  exact ⟨h2, h3, h4⟩

theorem bisectRightAux_spec {a : List ℚ} {x : ℚ} (hs : List.Pairwise (· ≤ ·) a) :
    ∀ fuel lo hi, hi - lo ≤ fuel → lo ≤ hi → hi ≤ a.length →
    (∀ i, i < lo → a.getD i 0 ≤ x) → (∀ i, hi ≤ i → i < a.length → x < a.getD i 0) →
    lo ≤ bisectRightAux a x fuel lo hi ∧ bisectRightAux a x fuel lo hi ≤ hi ∧
    (∀ i, i < bisectRightAux a x fuel lo hi → a.getD i 0 ≤ x) ∧
    (∀ i, bisectRightAux a x fuel lo hi ≤ i → i < a.length → x < a.getD i 0) := by
  intro fuel
  induction fuel with
  | zero =>
    intro lo hi hfuel hlohi hlen hlow hhigh
    have : lo = hi := by omega
    subst this
    exact ⟨le_refl _, le_refl _, hlow, hhigh⟩
  | succ fuel ih =>
    intro lo hi hfuel hlohi hlen hlow hhigh
    rw [bisectRightAux]
    by_cases hlh : lo < hi
    · rw [if_pos hlh]
      have hmidlo : lo ≤ (lo + hi) / 2 := by omega
      have hmidhi : (lo + hi) / 2 < hi := by omega
      by_cases hcmp : x < a.getD ((lo + hi) / 2) 0
      · rw [if_pos hcmp]
        have hhigh2 : ∀ i, (lo + hi) / 2 ≤ i → i < a.length → x < a.getD i 0 := by
          intro i hi1 hi2
          exact lt_of_lt_of_le hcmp (sorted_getD hs hi1 hi2)
        obtain ⟨h1, h2, h3, h4⟩ := ih lo ((lo + hi) / 2) (by omega) (by omega) (by omega)
          hlow hhigh2
        exact ⟨h1, by omega, h3, h4⟩
      · rw [if_neg hcmp]
        have hlow2 : ∀ i, i < (lo + hi) / 2 + 1 → a.getD i 0 ≤ x := by
          intro i hi2
          exact le_trans (sorted_getD hs (by omega) (lt_of_lt_of_le hmidhi hlen))
            (not_lt.1 hcmp)
        obtain ⟨h1, h2, h3, h4⟩ := ih ((lo + hi) / 2 + 1) hi (by omega) (by omega) hlen
          hlow2 hhigh
        exact ⟨by omega, h2, h3, h4⟩
    · rw [if_neg hlh]
      have : lo = hi := by omega
      subst this
      exact ⟨le_refl _, le_refl _, hlow, hhigh⟩

theorem bisect_right_spec {a : List ℚ} {x : ℚ} (hs : List.Pairwise (· ≤ ·) a) :
    bisect_right a x ≤ a.length ∧
    (∀ i, i < bisect_right a x → a.getD i 0 ≤ x) ∧
    (∀ i, bisect_right a x ≤ i → i < a.length → x < a.getD i 0) := by
  obtain ⟨h1, h2, h3, h4⟩ := bisectRightAux_spec hs a.length 0 a.length (by omega)
    (Nat.zero_le _) (le_refl _) (by omega) (by omega)
  exact ⟨h2, h3, h4⟩

/-! ## Lemmas: find? and filter against index descriptions -/

theorem find?_eq_some_getD {p : ℚ → Bool} :
    ∀ (l : List ℚ) (r : ℕ), r < l.length → (∀ i, i < r → p (l.getD i 0) = false) →
    p (l.getD r 0) = true → l.find? p = some (l.getD r 0) := by
  intro l
  induction l with
  | nil => intro r hr; simp at hr
  | cons a as ih =>
    intro r hr hbefore hat
    cases r with
    | zero =>
      have hat' : p a = true := hat
      rw [List.find?_cons_of_pos _ hat']
      rfl
    | succ r =>
      have ha : p a = false := hbefore 0 (Nat.succ_pos r)
      rw [List.find?_cons_of_neg _ (by simp [ha])]
      exact ih r (by simpa using hr) (fun i hi2 => hbefore (i + 1) (by omega)) hat

theorem find?_eq_none_of_all {p : ℚ → Bool} {l : List ℚ}
    (h : ∀ i, i < l.length → p (l.getD i 0) = false) : l.find? p = none := by
  rw [List.find?_eq_none]
  intro k hk
  obtain ⟨⟨i, hi⟩, rfl⟩ := List.mem_iff_get.1 hk
  have := h i hi
  rw [getD_get?, List.get?_eq_get hi] at this
  simp only [Option.getD_some] at this
  simpa using this

theorem filter_eq_take {p : ℚ → Bool} :
    ∀ (l : List ℚ) (r : ℕ), r ≤ l.length → (∀ i, i < r → p (l.getD i 0) = true) →
    (∀ i, r ≤ i → i < l.length → p (l.getD i 0) = false) →
    l.filter p = l.take r := by
  intro l
  induction l with
  | nil => intro r hr _ _; simp at hr; simp [hr]
  | cons a as ih =>
    intro r hr hbefore hafter
    cases r with
    | zero =>
      have ha : p a = false := hafter 0 (le_refl _) (Nat.succ_pos _)
      rw [List.take_zero, List.filter_cons_of_neg (by simp [ha])]
      have := ih 0 (Nat.zero_le _) (by omega)
        (fun i _ hi2 => hafter (i + 1) (by omega) (by simpa using hi2))
      simpa using this
    | succ r =>
      have ha : p a = true := hbefore 0 (Nat.succ_pos r)
      rw [List.take_succ_cons, List.filter_cons_of_pos ha]
      rw [ih r (by simpa using hr) (fun i hi2 => hbefore (i + 1) (by omega))
        (fun i hi1 hi2 => hafter (i + 1) (by omega) (by simpa using hi2))]

/-! ## C2: the emitted aligned segment always satisfies start below end -/

theorem align_single_cases (s e : ℚ) (kfs : List ℚ) :
    align_single_segment_with_keyframes s e kfs = (s, e, false) ∨
    (∃ sa ea, align_single_segment_with_keyframes s e kfs = (sa, ea, true) ∧ sa < ea) := by
  by_cases h1 : kfs = [] ∨ e ≤ s
  · exact Or.inl (by rw [align_single_segment_with_keyframes, if_pos h1])
  · by_cases h2 : (alignCandidates s e kfs).2 ≤ (alignCandidates s e kfs).1
    · refine Or.inl ?_
      rw [align_single_segment_with_keyframes, if_neg h1]
      show (if (alignCandidates s e kfs).2 ≤ (alignCandidates s e kfs).1 then (s, e, false)
          else ((alignCandidates s e kfs).1, (alignCandidates s e kfs).2, true)) = (s, e, false)
      rw [if_pos h2]
    · refine Or.inr ⟨(alignCandidates s e kfs).1, (alignCandidates s e kfs).2, ?_, not_le.1 h2⟩
      rw [align_single_segment_with_keyframes, if_neg h1]
      show (if (alignCandidates s e kfs).2 ≤ (alignCandidates s e kfs).1 then (s, e, false)
          else ((alignCandidates s e kfs).1, (alignCandidates s e kfs).2, true))
        = ((alignCandidates s e kfs).1, (alignCandidates s e kfs).2, true)
      rw [if_neg h2]

/-- C2: for every raw segment with start strictly below end, every
keyframe list and both recognised alignment modes, every emitted
aligned segment satisfies startFinal strictly below endFinal; whenever
keyframe alignment would be degenerate, or no keyframe data exists, the
raw boundaries are substituted. -/
theorem c2_final_invariant (segments : List RawSegQ) (keyframes : List ℚ) (mode : String)
    (hmode : mode = "none" ∨ mode = "keyframe")
    (hseg : ∀ g ∈ segments, g.startSec < g.endSec)
    (out : List AlignedSeg)
    (hout : align_segments_with_keyframes segments keyframes mode = .ok out) :
    (∀ o ∈ out, o.startFinal < o.endFinal) ∧
    (∀ o ∈ out, o.usedKeyframeAlignment = false →
      o.startFinal = o.startSec ∧ o.endFinal = o.endSec) := by
  rcases hmode with rfl | rfl
  · rw [align_segments_with_keyframes, if_pos rfl] at hout
    rw [← Except.ok.inj hout]
    constructor
    · intro o ho
      obtain ⟨g, hg, rfl⟩ := List.mem_map.1 ho
      exact hseg g hg
    · intro o ho _
      obtain ⟨g, hg, rfl⟩ := List.mem_map.1 ho
      exact ⟨rfl, rfl⟩
  · rw [align_segments_with_keyframes, if_neg (by decide), if_neg (by simp)] at hout
    by_cases hk : keyframes = []
    · rw [if_pos hk] at hout
      rw [← Except.ok.inj hout]
      constructor
      · intro o ho
        obtain ⟨g, hg, rfl⟩ := List.mem_map.1 ho
        exact hseg g hg
      · intro o ho _
        obtain ⟨g, hg, rfl⟩ := List.mem_map.1 ho
        exact ⟨rfl, rfl⟩
    · rw [if_neg hk] at hout
      rw [← Except.ok.inj hout]
      constructor
      · intro o ho
        obtain ⟨g, hg, rfl⟩ := List.mem_map.1 ho
        rcases align_single_cases g.startSec g.endSec keyframes with
          hcase | ⟨sa, ea, hcase, hlt⟩
        · rw [hcase]
          exact hseg g hg
        · rw [hcase]
          exact hlt
      · intro o ho hused
        obtain ⟨g, hg, rfl⟩ := List.mem_map.1 ho
        rcases align_single_cases g.startSec g.endSec keyframes with
          hcase | ⟨sa, ea, hcase, hlt⟩
        · rw [hcase]
          exact ⟨rfl, rfl⟩
        · rw [hcase] at hused
          exact absurd hused (by simp)

/-- Witness for C2: with keyframes 2, 5, 9 and the raw segment from 1
to 8 in keyframe mode, the emitted boundaries 2 and 5 satisfy the
invariant. -/
theorem c2_final_invariant_witness :
    (⟨1, 1, 8, 2, 5, true, "aligned_to_keyframe"⟩ : AlignedSeg).startFinal
      < (⟨1, 1, 8, 2, 5, true, "aligned_to_keyframe"⟩ : AlignedSeg).endFinal := by
  have hok : align_segments_with_keyframes [⟨1, 1, 8⟩] [2, 5, 9] "keyframe"
      = .ok [⟨1, 1, 8, 2, 5, true, "aligned_to_keyframe"⟩] := by decide
  exact (c2_final_invariant [⟨1, 1, 8⟩] [2, 5, 9] "keyframe" (Or.inr rfl)
    (fun g hg => by rw [List.mem_singleton.1 hg]; norm_num) _ hok).1 _
    (List.mem_singleton.2 rfl)

/-! ## C3: characterisation of the keyframe snap rule -/

theorem alignCandidates_eq_spec {kfs : List ℚ} (hs : List.Pairwise (· ≤ ·) kfs)
    (hne : kfs ≠ []) (s e : ℚ) :
    alignCandidates s e kfs = (specAlignedStart kfs s, specAlignedEnd kfs e) := by
  have hlen : 0 < kfs.length := List.length_pos.2 hne
  obtain ⟨hl1, hl2, hl3⟩ := bisect_left_spec (a := kfs) (x := s) hs
  obtain ⟨hr1, hr2, hr3⟩ := bisect_right_spec (a := kfs) (x := e) hs
  have hstart : (if kfs.length ≤ bisect_left kfs s
      then kfs.getD (kfs.length - 1) 0 else kfs.getD (bisect_left kfs s) 0)
      = specAlignedStart kfs s := by
    by_cases hcase : kfs.length ≤ bisect_left kfs s
    · rw [if_pos hcase, specAlignedStart, firstKeyframeGE,
        find?_eq_none_of_all (fun i hi => ?_)]
      · rw [List.getLastD_eq_getLast?, getLast?_get?, getD_get?]
      · simp only [decide_eq_false_iff_not, not_le]
        exact hl2 i (by omega)
    · push_neg at hcase
      rw [if_neg (not_le.2 hcase), specAlignedStart, firstKeyframeGE,
        find?_eq_some_getD kfs (bisect_left kfs s) hcase
          (fun i hi => by simp only [decide_eq_false_iff_not, not_le]; exact hl2 i hi)
          (by simp only [decide_eq_true_eq]; exact hl3 _ (le_refl _) hcase)]
  have hend : (if bisect_right kfs e = 0 then kfs.getD 0 0
      else kfs.getD (bisect_right kfs e - 1) 0) = specAlignedEnd kfs e := by
    by_cases hcase : bisect_right kfs e = 0
    · rw [if_pos hcase, specAlignedEnd, lastKeyframeLE,
        filter_eq_take kfs 0 (Nat.zero_le _) (by omega)
          (fun i _ hi2 => by
            simp only [decide_eq_false_iff_not, not_le]
            exact hr3 i (by omega) hi2)]
      simp only [List.take_zero, List.getLast?_nil]
      cases kfs with
      | nil => rfl
      | cons a as => rfl
    · have hpos : 0 < bisect_right kfs e := Nat.pos_of_ne_zero hcase
      rw [if_neg hcase, specAlignedEnd, lastKeyframeLE,
        filter_eq_take kfs (bisect_right kfs e) hr1
          (fun i hi => by simp only [decide_eq_true_eq]; exact hr2 i hi)
          (fun i hi1 hi2 => by
            simp only [decide_eq_false_iff_not, not_le]
            exact hr3 i hi1 hi2)]
      have hidx : bisect_right kfs e - 1 < kfs.length := by omega
      have hlast : (kfs.take (bisect_right kfs e)).getLast?
          = some (kfs.getD (bisect_right kfs e - 1) 0) := by
        rw [getLast?_get?, List.length_take, min_eq_left hr1,
          List.get?_take (by omega), getD_get?, List.get?_eq_get hidx]
        rfl
      rw [hlast]
  rw [alignCandidates]
  rw [hstart, hend]

/-- C3: in keyframe mode over a non-empty sorted keyframe list and a
raw segment with start strictly below end, the candidate aligned start
is the first keyframe at or after the start (the last keyframe when the
start is past every keyframe), the candidate aligned end is the last
keyframe at or before the end (the first keyframe when the end precedes
every keyframe), the pair is accepted with the flag set exactly when
the candidate start is strictly below the candidate end, and otherwise
the raw boundaries are used with the flag cleared. -/
theorem c3_keyframe_snap (s e : ℚ) (kfs : List ℚ)
    (hs : List.Pairwise (· ≤ ·) kfs) (hne : kfs ≠ []) (hlt : s < e) :
    alignCandidates s e kfs = (specAlignedStart kfs s, specAlignedEnd kfs e) ∧
    (specAlignedStart kfs s < specAlignedEnd kfs e →
      align_single_segment_with_keyframes s e kfs
        = (specAlignedStart kfs s, specAlignedEnd kfs e, true)) ∧
    (¬ specAlignedStart kfs s < specAlignedEnd kfs e →
      align_single_segment_with_keyframes s e kfs = (s, e, false)) := by
  have hcand := alignCandidates_eq_spec hs hne s e
  have hguard : ¬ (kfs = [] ∨ e ≤ s) := by
    rintro (h | h)
    exacts [hne h, absurd hlt (not_lt.2 h)]
  refine ⟨hcand, ?_, ?_⟩
  · intro hacc
    rw [align_single_segment_with_keyframes, if_neg hguard]
    show (if (alignCandidates s e kfs).2 ≤ (alignCandidates s e kfs).1 then (s, e, false)
        else ((alignCandidates s e kfs).1, (alignCandidates s e kfs).2, true)) = _
    rw [hcand]
    show (if specAlignedEnd kfs e ≤ specAlignedStart kfs s then (s, e, false)
        else (specAlignedStart kfs s, specAlignedEnd kfs e, true)) = _
    rw [if_neg (not_le.2 hacc)]
  · intro hrej
    rw [align_single_segment_with_keyframes, if_neg hguard]
    show (if (alignCandidates s e kfs).2 ≤ (alignCandidates s e kfs).1 then (s, e, false)
        else ((alignCandidates s e kfs).1, (alignCandidates s e kfs).2, true)) = _
    rw [hcand]
    show (if specAlignedEnd kfs e ≤ specAlignedStart kfs s then (s, e, false)
        else (specAlignedStart kfs s, specAlignedEnd kfs e, true)) = _
    rw [if_pos (not_lt.1 hrej)]

/-- Witness for C3 with keyframes 2, 5, 9 and the segment from 1 to 8:
the snap gives 2 and 5 and is accepted. -/
theorem c3_keyframe_snap_witness :
    align_single_segment_with_keyframes 1 8 [2, 5, 9] = (2, 5, true) := by
  have hp : List.Pairwise (· ≤ ·) ([2, 5, 9] : List ℚ) := by
    norm_num [List.pairwise_cons]
  have h := c3_keyframe_snap 1 8 [2, 5, 9] hp (by simp) (by norm_num)
  have hstart : specAlignedStart [2, 5, 9] 1 = 2 := by decide
  have hend : specAlignedEnd [2, 5, 9] 8 = 5 := by decide
  rw [h.2.1 (by rw [hstart, hend]; norm_num), hstart, hend]

/-! ## Lemmas: ledger validation and pairing -/

theorem get?_cons_cons_two (s e : Entry) (rest : List Entry) (j : ℕ) :
    (s :: e :: rest).get? (2 * (j + 1)) = rest.get? (2 * j) := by
  rw [show 2 * (j + 1) = 2 * j + 1 + 1 from by ring, List.get?_cons_succ,
    List.get?_cons_succ]

theorem get?_cons_cons_two_succ (s e : Entry) (rest : List Entry) (j : ℕ) :
    (s :: e :: rest).get? (2 * (j + 1) + 1) = rest.get? (2 * j + 1) := by
  rw [show 2 * (j + 1) + 1 = 2 * j + 1 + 1 + 1 from by ring, List.get?_cons_succ,
    List.get?_cons_succ]

theorem parse_marks_lines_ok {lines : List String} {es : List Entry}
    (h : parseEntriesAux 1 lines = .ok es) :
    parse_marks_lines lines = validateEntries es := by
  rw [parse_marks_lines, h]

theorem coreBuildAux_cons_unknown {s e : Entry} {rest : List Entry} {pi : ℕ}
    (hu : s.tsRaw = "UNKNOWN" ∨ e.tsRaw = "UNKNOWN") :
    coreBuildAux pi (s :: e :: rest)
      = .error (.unknownPair (pi + 1) s.lineNo e.lineNo s.tsRaw e.tsRaw) := by
  rw [coreBuildAux, if_pos hu]

theorem coreBuildAux_cons_sNone {s e : Entry} {rest : List Entry} {pi : ℕ}
    (hu : ¬(s.tsRaw = "UNKNOWN" ∨ e.tsRaw = "UNKNOWN"))
    (hx : parse_timestamp_to_seconds s.tsRaw = none) :
    coreBuildAux pi (s :: e :: rest)
      = .error (.invalidTimestamp (pi + 1) s.lineNo e.lineNo s.tsRaw) := by
  rw [coreBuildAux, if_neg hu, hx]

theorem coreBuildAux_cons_eNone {s e : Entry} {rest : List Entry} {pi : ℕ} {x : PyFloat}
    (hu : ¬(s.tsRaw = "UNKNOWN" ∨ e.tsRaw = "UNKNOWN"))
    (hx : parse_timestamp_to_seconds s.tsRaw = some x)
    (hy : parse_timestamp_to_seconds e.tsRaw = none) :
    coreBuildAux pi (s :: e :: rest)
      = .error (.invalidTimestamp (pi + 1) s.lineNo e.lineNo e.tsRaw) := by
  rw [coreBuildAux, if_neg hu, hx, hy]

theorem coreBuildAux_cons_ge {s e : Entry} {rest : List Entry} {pi : ℕ} {x y : PyFloat}
    (hu : ¬(s.tsRaw = "UNKNOWN" ∨ e.tsRaw = "UNKNOWN"))
    (hx : parse_timestamp_to_seconds s.tsRaw = some x)
    (hy : parse_timestamp_to_seconds e.tsRaw = some y)
    (hge : pyGe x y = true) :
    coreBuildAux pi (s :: e :: rest)
      = .error (.nonPositiveDuration (pi + 1) s.lineNo e.lineNo) := by
  rw [coreBuildAux, if_neg hu, hx, hy]
  show (if pyGe x y = true
      then Except.error (.nonPositiveDuration (pi + 1) s.lineNo e.lineNo)
      else match coreBuildAux (pi + 1) rest with
        | .error err => .error err
        | .ok segs =>
          .ok (⟨pi + 1, s.lineNo, e.lineNo, s.tsRaw, e.tsRaw, x, y⟩ :: segs)) = _
  rw [if_pos hge]

theorem coreBuildAux_cons_step {s e : Entry} {rest : List Entry} {pi : ℕ} {x y : PyFloat}
    (hu : ¬(s.tsRaw = "UNKNOWN" ∨ e.tsRaw = "UNKNOWN"))
    (hx : parse_timestamp_to_seconds s.tsRaw = some x)
    (hy : parse_timestamp_to_seconds e.tsRaw = some y)
    (hge : pyGe x y = false) :
    coreBuildAux pi (s :: e :: rest)
      = match coreBuildAux (pi + 1) rest with
        | .error err => .error err
        | .ok segs =>
          .ok (⟨pi + 1, s.lineNo, e.lineNo, s.tsRaw, e.tsRaw, x, y⟩ :: segs) := by
  rw [coreBuildAux, if_neg hu, hx, hy]
  show (if pyGe x y = true
      then Except.error (.nonPositiveDuration (pi + 1) s.lineNo e.lineNo)
      else match coreBuildAux (pi + 1) rest with
        | .error err => .error err
        | .ok segs =>
          .ok (⟨pi + 1, s.lineNo, e.lineNo, s.tsRaw, e.tsRaw, x, y⟩ :: segs)) = _
  rw [hge]
  simp

theorem cliBuildAux_cons {s e : Entry} {rest : List Entry} {pi : ℕ}
    {vs' : List PendingSeg} {sks' : List SkippedPair}
    (hrec : cliBuildAux (pi + 1) rest = some (vs', sks')) :
    cliBuildAux pi (s :: e :: rest)
      = if s.tsRaw = "UNKNOWN" ∨ e.tsRaw = "UNKNOWN"
        then some (vs', ⟨pi + 1, s.lineNo, e.lineNo, s.tsRaw, e.tsRaw⟩ :: sks')
        else some (⟨pi + 1, s.lineNo, e.lineNo, s.tsRaw, e.tsRaw⟩ :: vs', sks') := by
  rw [cliBuildAux, hrec]

theorem checkPairsOrder_error : ∀ (es : List Entry) (k : ℕ) (e1 e2 : Entry),
    es.get? (2 * k) = some e1 → es.get? (2 * k + 1) = some e2 →
    ¬(e1.tag = "start" ∧ e2.tag = "end") →
    (∀ j f1 f2, j < k → es.get? (2 * j) = some f1 → es.get? (2 * j + 1) = some f2 →
      f1.tag = "start" ∧ f2.tag = "end") →
    checkPairsOrder es = .error (.outOfOrder e1.lineNo e2.lineNo e1.tag e2.tag)
  | [], k, e1, e2 => by
    intro h1
    simp at h1
  | [x], k, e1, e2 => by
    intro h1 h2
    cases k with
    | zero => simp at h2
    | succ k =>
      rw [show 2 * (k + 1) = 2 * k + 1 + 1 from by ring, List.get?_cons_succ] at h1
      simp at h1
  | s :: e :: rest, k, e1, e2 => by
    intro h1 h2 hbad hprev
    cases k with
    | zero =>
      simp only [Nat.mul_zero, List.get?_cons_zero, Option.some.injEq] at h1
      simp only [Nat.mul_zero, Nat.zero_add, List.get?_cons_succ,
        List.get?_cons_zero, Option.some.injEq] at h2
      subst h1
      subst h2
      rw [checkPairsOrder, if_neg hbad]
    | succ k =>
      have hfirst : s.tag = "start" ∧ e.tag = "end" := by
        refine hprev 0 s e (Nat.succ_pos k) rfl rfl
      rw [checkPairsOrder, if_pos hfirst]
      rw [get?_cons_cons_two] at h1
      rw [get?_cons_cons_two_succ] at h2
      refine checkPairsOrder_error rest k e1 e2 h1 h2 hbad ?_
      intro j f1 f2 hj hf1 hf2
      refine hprev (j + 1) f1 f2 (by omega) ?_ ?_
      · rw [get?_cons_cons_two]
        exact hf1
      · rw [get?_cons_cons_two_succ]
        exact hf2

/-- C6 counterexample: in the ledger end, end, end, start the pair
number two has tags (End, Start), but parsing reports the out-of-order
error for pair number one, whose tags are (End, End): the error does
not name the (End, Start) pair. -/
theorem c6_rejection_counterexample :
    parse_marks_lines ["1, end", "2, end", "3, end", "4, start"]
      = .error (.outOfOrder 1 2 "end" "end") ∧
    MarksErr.outOfOrder 1 2 "end" "end" ≠ MarksErr.outOfOrder 3 4 "end" "start" := by
  exact ⟨by decide, by decide⟩

/-- C6 amended: a ledger whose valid entries have odd count always
fails with the unpaired-entries error carrying that count; and a ledger
with even entry count whose first pair violating (Start, End) order is
pair k with tags (End, Start) always fails with the out-of-order error
naming pair k. -/
theorem c6_rejection (lines : List String) (es : List Entry)
    (hparse : parseEntriesAux 1 lines = .ok es) :
    (es.length % 2 = 1 → parse_marks_lines lines = .error (.unpairedEntries es.length)) ∧
    (∀ k e1 e2, es.length % 2 = 0 →
      es.get? (2 * k) = some e1 → es.get? (2 * k + 1) = some e2 →
      e1.tag = "end" → e2.tag = "start" →
      (∀ j f1 f2, j < k → es.get? (2 * j) = some f1 → es.get? (2 * j + 1) = some f2 →
        f1.tag = "start" ∧ f2.tag = "end") →
      parse_marks_lines lines = .error (.outOfOrder e1.lineNo e2.lineNo e1.tag e2.tag)) := by
  constructor
  · intro hodd
    rw [parse_marks_lines_ok hparse, validateEntries,
      if_neg (by omega), if_pos (by omega)]
  · intro k e1 e2 heven h1 h2 ht1 ht2 hprev
    have hlen : 2 * k < es.length := by
      obtain ⟨h, -⟩ := List.get?_eq_some.1 h1
      exact h
    rw [parse_marks_lines_ok hparse, validateEntries,
      if_neg (by omega), if_neg (by omega),
      checkPairsOrder_error es k e1 e2 h1 h2 (by rw [ht1]; simp) hprev]

/-- Witness for C6 amended: a three-entry ledger gives the unpaired
error with count three, and the ledger end, start gives the
out-of-order error naming pair one. -/
theorem c6_rejection_witness :
    parse_marks_lines ["1, start", "2, end", "3, start"]
      = .error (.unpairedEntries 3) ∧
    parse_marks_lines ["1, end", "2, start"]
      = .error (.outOfOrder 1 2 "end" "start") := by
  constructor
  · exact (c6_rejection ["1, start", "2, end", "3, start"]
      [⟨1, "1", "start"⟩, ⟨2, "2", "end"⟩, ⟨3, "3", "start"⟩] (by decide)).1 (by decide)
  · exact (c6_rejection ["1, end", "2, start"]
      [⟨1, "1", "end"⟩, ⟨2, "2", "start"⟩] (by decide)).2 0
      ⟨1, "1", "end"⟩ ⟨2, "2", "start"⟩ (by decide) rfl rfl rfl rfl
      (fun j f1 f2 hj _ _ => absurd hj (Nat.not_lt_zero j))

theorem coreBuildAux_ok : ∀ (n : ℕ) (es : List Entry) (pi : ℕ), es.length = 2 * n →
    (∀ j s' e', es.get? (2 * j) = some s' → es.get? (2 * j + 1) = some e' →
      s'.tsRaw ≠ "UNKNOWN" ∧ e'.tsRaw ≠ "UNKNOWN" ∧
        pairParsesOK s'.tsRaw e'.tsRaw = true) →
    ∃ segs, coreBuildAux pi es = .ok segs ∧ segs.length = n ∧
      ∀ i, i < n → (segs.get? i).map RawSeg.pairIndex = some (pi + i + 1)
  | n, [], pi => by
    intro hlen _
    have : n = 0 := by simpa using hlen.symm
    subst this
    exact ⟨[], rfl, rfl, fun i hi => absurd hi (Nat.not_lt_zero i)⟩
  | n, [x], pi => by
    intro hlen _
    simp at hlen
    omega
  | n, s :: e :: rest, pi => by
    intro hlen hts
    have hn : ∃ m, n = m + 1 := by
      cases n with
      | zero => simp at hlen
      | succ m => exact ⟨m, rfl⟩
    obtain ⟨m, rfl⟩ := hn
    obtain ⟨hsu, heu, hp⟩ := hts 0 s e rfl rfl
    have hrestlen : rest.length = 2 * m := by
      simp only [List.length_cons] at hlen
      omega
    have hts2 : ∀ j s' e', rest.get? (2 * j) = some s' → rest.get? (2 * j + 1) = some e' →
        s'.tsRaw ≠ "UNKNOWN" ∧ e'.tsRaw ≠ "UNKNOWN" ∧
          pairParsesOK s'.tsRaw e'.tsRaw = true := by
      intro j s' e' hj1 hj2
      refine hts (j + 1) s' e' ?_ ?_
      · rw [get?_cons_cons_two]; exact hj1
      · rw [get?_cons_cons_two_succ]; exact hj2
    obtain ⟨segs, hsegs, hslen, hidx⟩ := coreBuildAux_ok m rest (pi + 1) hrestlen hts2
    rw [pairParsesOK] at hp
    rcases hx : parse_timestamp_to_seconds s.tsRaw with - | x
    · rw [hx] at hp; simp at hp
    rcases hy : parse_timestamp_to_seconds e.tsRaw with - | y
    · rw [hx, hy] at hp; simp at hp
    rw [hx, hy] at hp
    have hge : pyGe x y = false := by
      simpa using hp
    refine ⟨⟨pi + 1, s.lineNo, e.lineNo, s.tsRaw, e.tsRaw, x, y⟩ :: segs, ?_, by simpa, ?_⟩
    · rw [coreBuildAux_cons_step (by rintro (h | h); exacts [hsu h, heu h]) hx hy hge,
        hsegs]
    · intro i hi
      cases i with
      | zero => rfl
      | succ i =>
        rw [List.get?_cons_succ]
        rw [hidx i (by omega)]
        congr 1
        omega

/-- C5 counterexample: the ledger 10, start then 5, end has an even,
non-zero count of valid entries in strict Start, End alternation, yet
the pipeline does not return one segment: the pair fails the duration
check with a fatal error. -/
theorem c5_pairing_counterexample :
    parse_marks_lines ["10, start", "5, end"]
      = .ok [⟨1, "10", "start"⟩, ⟨2, "5", "end"⟩] ∧
    core_build_segments_from_entries [⟨1, "10", "start"⟩, ⟨2, "5", "end"⟩]
      = .error (.nonPositiveDuration 1 1 2) := by
  exact ⟨by decide, by decide⟩

/-- C5 amended: for ledger contents whose parse succeeds with 2n
entries (hence even, non-zero when n is positive, strictly alternating
Start, End), and whose pairs all carry parseable non-sentinel
timestamps with start strictly below end, the pairing stage returns
exactly n segments in ascending one-based pairIndex order. -/
theorem c5_pairing (lines : List String) (es : List Entry) (n : ℕ)
    (hok : parse_marks_lines lines = .ok es)
    (hlen : es.length = 2 * n)
    (hts : ∀ j s' e', es.get? (2 * j) = some s' → es.get? (2 * j + 1) = some e' →
      s'.tsRaw ≠ "UNKNOWN" ∧ e'.tsRaw ≠ "UNKNOWN" ∧
        pairParsesOK s'.tsRaw e'.tsRaw = true) :
    ∃ segs, core_build_segments_from_entries es = .ok segs ∧ segs.length = n ∧
      ∀ i, i < n → (segs.get? i).map RawSeg.pairIndex = some (i + 1) := by
  obtain ⟨segs, hsegs, hslen, hidx⟩ := coreBuildAux_ok n es 0 hlen hts
  refine ⟨segs, hsegs, hslen, fun i hi => ?_⟩
  rw [hidx i hi]
  norm_num

/-- Witness for C5 amended at the ledger 5, start then 70, end: one
segment with pairIndex one. -/
theorem c5_pairing_witness :
    ∃ segs, core_build_segments_from_entries [⟨1, "5", "start"⟩, ⟨2, "70", "end"⟩]
      = .ok segs ∧ segs.length = 1 ∧
      ∀ i, i < 1 → (segs.get? i).map RawSeg.pairIndex = some (i + 1) := by
  refine c5_pairing ["5, start", "70, end"] [⟨1, "5", "start"⟩, ⟨2, "70", "end"⟩] 1
    (by decide) (by decide) ?_
  intro j s' e' h1 h2
  cases j with
  | zero =>
    simp only [Nat.mul_zero, List.get?_cons_zero, Option.some.injEq] at h1
    simp only [Nat.mul_zero, Nat.zero_add, List.get?_cons_succ,
      List.get?_cons_zero, Option.some.injEq] at h2
    subst h1
    subst h2
    exact ⟨by decide, by decide, by decide⟩
  | succ j =>
    rw [List.get?_eq_none.2
      (by simp only [List.length_cons, List.length_nil]; omega)] at h1
    exact absurd h1 (by simp)

theorem coreBuildAux_error : ∀ (es : List Entry) (pi k : ℕ) (s' e' : Entry),
    es.get? (2 * k) = some s' → es.get? (2 * k + 1) = some e' →
    (s'.tsRaw = "UNKNOWN" ∨ e'.tsRaw = "UNKNOWN") →
    ∃ err, coreBuildAux pi es = .error err
  | [], pi, k, s', e' => by
    intro h1
    simp at h1
  | [x], pi, k, s', e' => by
    intro h1 h2
    cases k with
    | zero => simp at h2
    | succ k =>
      rw [show 2 * (k + 1) = 2 * k + 1 + 1 from by ring, List.get?_cons_succ] at h1
      simp at h1
  | s :: e :: rest, pi, k, s', e' => by
    intro h1 h2 hunk
    by_cases hu : s.tsRaw = "UNKNOWN" ∨ e.tsRaw = "UNKNOWN"
    · exact ⟨_, coreBuildAux_cons_unknown hu⟩
    · have hk : ∃ m, k = m + 1 := by
        cases k with
        | zero =>
          simp only [Nat.mul_zero, List.get?_cons_zero, Option.some.injEq] at h1
          simp only [Nat.mul_zero, Nat.zero_add, List.get?_cons_succ,
            List.get?_cons_zero, Option.some.injEq] at h2
          subst h1
          subst h2
          exact absurd hunk hu
        | succ m => exact ⟨m, rfl⟩
      obtain ⟨m, rfl⟩ := hk
      rw [get?_cons_cons_two] at h1
      rw [get?_cons_cons_two_succ] at h2
      rcases hx : parse_timestamp_to_seconds s.tsRaw with - | x
      · exact ⟨_, coreBuildAux_cons_sNone hu hx⟩
      · rcases hy : parse_timestamp_to_seconds e.tsRaw with - | y
        · exact ⟨_, coreBuildAux_cons_eNone hu hx hy⟩
        · by_cases hge : pyGe x y = true
          · exact ⟨_, coreBuildAux_cons_ge hu hx hy hge⟩
          · obtain ⟨err, herr⟩ := coreBuildAux_error rest (pi + 1) m s' e' h1 h2 hunk
            refine ⟨err, ?_⟩
            rw [coreBuildAux_cons_step hu hx hy (by simpa using hge), herr]

theorem cliBuildAux_mem : ∀ (es : List Entry) (pi : ℕ), es.length % 2 = 0 →
    ∃ vs sks, cliBuildAux pi es = some (vs, sks) ∧
      (∀ j s' e', es.get? (2 * j) = some s' → es.get? (2 * j + 1) = some e' →
        ((s'.tsRaw = "UNKNOWN" ∨ e'.tsRaw = "UNKNOWN") →
          (pi + j + 1) ∈ sks.map SkippedPair.pairIndex) ∧
        (¬(s'.tsRaw = "UNKNOWN" ∨ e'.tsRaw = "UNKNOWN") →
          (pi + j + 1) ∈ vs.map PendingSeg.pairIndex)) ∧
      (∀ q, q ∈ vs.map PendingSeg.pairIndex → pi < q) ∧
      (∀ q, q ∈ sks.map SkippedPair.pairIndex → pi < q) ∧
      (∀ q, q ∈ vs.map PendingSeg.pairIndex → q ∉ sks.map SkippedPair.pairIndex)
  | [], pi => by
    intro _
    refine ⟨[], [], rfl, ?_, by simp, by simp, by simp⟩
    intro j s' e' h1
    simp at h1
  | [x], pi => by
    intro hlen
    simp at hlen
  | s :: e :: rest, pi => by
    intro hlen
    have hrest : rest.length % 2 = 0 := by
      simp only [List.length_cons] at hlen
      omega
    obtain ⟨vs', sks', hrec, hmem, hv, hs, hdisj⟩ := cliBuildAux_mem rest (pi + 1) hrest
    by_cases hu : s.tsRaw = "UNKNOWN" ∨ e.tsRaw = "UNKNOWN"
    · refine ⟨vs', ⟨pi + 1, s.lineNo, e.lineNo, s.tsRaw, e.tsRaw⟩ :: sks', ?_, ?_, ?_, ?_, ?_⟩
      · rw [cliBuildAux_cons hrec, if_pos hu]
      · intro j s' e' h1 h2
        cases j with
        | zero =>
          simp only [Nat.mul_zero, List.get?_cons_zero, Option.some.injEq] at h1
          simp only [Nat.mul_zero, Nat.zero_add, List.get?_cons_succ,
            List.get?_cons_zero, Option.some.injEq] at h2
          subst h1
          subst h2
          constructor
          · intro _
            simp
          · intro hnot
            exact absurd hu hnot
        | succ j =>
          rw [get?_cons_cons_two] at h1
          rw [get?_cons_cons_two_succ] at h2
          have := hmem j s' e' h1 h2
          constructor
          · intro hj
            have hin := this.1 hj
            simp only [List.map_cons, List.mem_cons]
            right
            simpa [Nat.add_assoc, Nat.add_comm, Nat.add_left_comm] using hin
          · intro hj
            have hin := this.2 hj
            simpa [Nat.add_assoc, Nat.add_comm, Nat.add_left_comm] using hin
      · intro q hq
        exact lt_trans (Nat.lt_succ_self pi) (hv q hq)
      · intro q hq
        simp only [List.map_cons, List.mem_cons] at hq
        rcases hq with rfl | hq
        · omega
        · exact lt_trans (Nat.lt_succ_self pi) (hs q hq)
      · intro q hq
        have hgt := hv q hq
        simp only [List.map_cons, List.mem_cons, not_or]
        exact ⟨by omega, hdisj q hq⟩
    · refine ⟨⟨pi + 1, s.lineNo, e.lineNo, s.tsRaw, e.tsRaw⟩ :: vs', sks', ?_, ?_, ?_, ?_, ?_⟩
      · rw [cliBuildAux_cons hrec, if_neg hu]
      · intro j s' e' h1 h2
        cases j with
        | zero =>
          simp only [Nat.mul_zero, List.get?_cons_zero, Option.some.injEq] at h1
          simp only [Nat.mul_zero, Nat.zero_add, List.get?_cons_succ,
            List.get?_cons_zero, Option.some.injEq] at h2
          subst h1
          subst h2
          constructor
          · intro hj
            exact absurd hj hu
          · intro _
            simp
        | succ j =>
          rw [get?_cons_cons_two] at h1
          rw [get?_cons_cons_two_succ] at h2
          have := hmem j s' e' h1 h2
          constructor
          · intro hj
            have hin := this.1 hj
            simpa [Nat.add_assoc, Nat.add_comm, Nat.add_left_comm] using hin
          · intro hj
            have hin := this.2 hj
            simp only [List.map_cons, List.mem_cons]
            right
            simpa [Nat.add_assoc, Nat.add_comm, Nat.add_left_comm] using hin
      · intro q hq
        simp only [List.map_cons, List.mem_cons] at hq
        rcases hq with rfl | hq
        · omega
        · exact lt_trans (Nat.lt_succ_self pi) (hv q hq)
      · intro q hq
        exact lt_trans (Nat.lt_succ_self pi) (hs q hq)
      · intro q hq
        simp only [List.map_cons, List.mem_cons] at hq
        rcases hq with rfl | hq
        · intro hin
          have := hs _ hin
          omega
        · exact hdisj q hq

/-- C1 counterexample: on a pair with an UNKNOWN start timestamp the
CLI-side builder of generate_clips.py does not reject: it returns the
pair in its skipped list non-fatally, while the GUI-side builder of
core.py raises the fatal unknown-pair error - the opposite of the
claimed assignment of the two policies. -/
theorem c1_unknown_policy_counterexample :
    cli_build_segments_from_entries [⟨1, "UNKNOWN", "start"⟩, ⟨2, "5", "end"⟩]
      = some ([], [⟨1, 1, 2, "UNKNOWN", "5"⟩]) ∧
    core_build_segments_from_entries [⟨1, "UNKNOWN", "start"⟩, ⟨2, "5", "end"⟩]
      = .error (.unknownPair 1 1 2 "UNKNOWN" "5") := by
  exact ⟨by decide, by decide⟩

/-- C1 amended: for every ledger pair in which either raw timestamp is
the UNKNOWN sentinel, the GUI-side entry point (core.py) rejects the
ledger with a fatal error, while the CLI-side entry point
(generate_clips.py) skips the pair non-fatally, recording it as a
skipped pair and producing pending segments exactly for the pairs
without the sentinel. -/
theorem c1_unknown_policy (entries : List Entry) (k : ℕ) (s' e' : Entry)
    (h1 : entries.get? (2 * k) = some s') (h2 : entries.get? (2 * k + 1) = some e')
    (hlen : entries.length % 2 = 0)
    (hunk : s'.tsRaw = "UNKNOWN" ∨ e'.tsRaw = "UNKNOWN") :
    (∃ err, core_build_segments_from_entries entries = .error err) ∧
    (∃ vs sks, cli_build_segments_from_entries entries = some (vs, sks) ∧
      (k + 1) ∈ sks.map SkippedPair.pairIndex ∧
      (k + 1) ∉ vs.map PendingSeg.pairIndex ∧
      ∀ j t' u', entries.get? (2 * j) = some t' → entries.get? (2 * j + 1) = some u' →
        ¬(t'.tsRaw = "UNKNOWN" ∨ u'.tsRaw = "UNKNOWN") →
        (j + 1) ∈ vs.map PendingSeg.pairIndex) := by
  constructor
  · exact coreBuildAux_error entries 0 k s' e' h1 h2 hunk
  · obtain ⟨vs, sks, hcli, hmem, hv, hs, hdisj⟩ := cliBuildAux_mem entries 0 hlen
    refine ⟨vs, sks, hcli, ?_, ?_, ?_⟩
    · have := (hmem k s' e' h1 h2).1 hunk
      simpa using this
    · intro hin
      have hsk : (k + 1) ∈ sks.map SkippedPair.pairIndex := by
        have := (hmem k s' e' h1 h2).1 hunk
        simpa using this
      exact hdisj _ hin hsk
    · intro j t' u' hj1 hj2 hnot
      have := (hmem j t' u' hj1 hj2).2 hnot
      simpa using this

/-- Witness for C1 amended at a four-entry ledger whose first pair has
an UNKNOWN start: the core builder errors and the CLI builder skips
pair one while keeping pair two. -/
theorem c1_unknown_policy_witness :
    (∃ err, core_build_segments_from_entries
        [⟨1, "UNKNOWN", "start"⟩, ⟨2, "5", "end"⟩, ⟨3, "7", "start"⟩, ⟨4, "9", "end"⟩]
      = .error err) ∧
    (∃ vs sks, cli_build_segments_from_entries
        [⟨1, "UNKNOWN", "start"⟩, ⟨2, "5", "end"⟩, ⟨3, "7", "start"⟩, ⟨4, "9", "end"⟩]
      = some (vs, sks) ∧
      (0 + 1) ∈ sks.map SkippedPair.pairIndex ∧
      (0 + 1) ∉ vs.map PendingSeg.pairIndex ∧
      ∀ j t' u',
        ([⟨1, "UNKNOWN", "start"⟩, ⟨2, "5", "end"⟩, ⟨3, "7", "start"⟩,
          ⟨4, "9", "end"⟩] : List Entry).get? (2 * j) = some t' →
        ([⟨1, "UNKNOWN", "start"⟩, ⟨2, "5", "end"⟩, ⟨3, "7", "start"⟩,
          ⟨4, "9", "end"⟩] : List Entry).get? (2 * j + 1) = some u' →
        ¬(t'.tsRaw = "UNKNOWN" ∨ u'.tsRaw = "UNKNOWN") →
        (j + 1) ∈ vs.map PendingSeg.pairIndex) :=
  c1_unknown_policy
    [⟨1, "UNKNOWN", "start"⟩, ⟨2, "5", "end"⟩, ⟨3, "7", "start"⟩, ⟨4, "9", "end"⟩]
    0 ⟨1, "UNKNOWN", "start"⟩ ⟨2, "5", "end"⟩ rfl rfl (by decide) (Or.inl rfl)

/-! ## Lemmas: the clipboard retry loop

The guard of the retry loop compares the binary64 sum
total_wait + 0.2 with 3.0.  The lemmas below evaluate the nine
rounded additions the loop can perform: the wait reaches the binary64
value 2.8000000000000003 after nine retries, and the tenth sum rounds
to 3.0000000000000004, failing the guard, so at most nine retries run
and the wait stays strictly below the budget.  None of the ten
roundings is a tie. -/

theorem pyRound_eq_of_near {q : ℚ} {n : ℤ} (h1 : (n : ℚ) - 1 / 2 < q)
    (h2 : q < (n : ℚ) + 1 / 2) : pyRound q = n := by
  by_cases hn : (n : ℚ) ≤ q
  · have hfl : ⌊q⌋ = n := by
      rw [Int.floor_eq_iff]
      exact ⟨hn, by linarith⟩
    rw [pyRound]
    simp only [hfl]
    rw [if_pos (show q - (n : ℚ) < 1 / 2 by linarith)]
  · push_neg at hn
    have hfl : ⌊q⌋ = n - 1 := by
      rw [Int.floor_eq_iff]
      constructor
      · push_cast; linarith
      · push_cast; linarith
    rw [pyRound]
    simp only [hfl]
    rw [if_neg (show ¬(q - ((n - 1 : ℤ) : ℚ) < 1 / 2) by push_cast; linarith),
      if_pos (show 1 / 2 < q - ((n - 1 : ℤ) : ℚ) by push_cast; linarith)]
    omega

theorem log2_eq_of_bounds {q : ℚ} {m : ℤ} (hq : 0 < q)
    (hlow : (2 : ℚ) ^ m ≤ q) (hhigh : q < (2 : ℚ) ^ (m + 1)) :
    Int.log 2 q = m := by
  have h1 : m ≤ Int.log 2 q :=
    (Int.zpow_le_iff_le_log (by norm_num) hq).1 (by exact_mod_cast hlow)
  have h2 : Int.log 2 q < m + 1 :=
    (Int.lt_zpow_iff_log_lt (by norm_num) hq).1 (by exact_mod_cast hhigh)
  omega

theorem roundB64_eval {q : ℚ} {m n : ℤ} (hq : 0 < q)
    (hlow : (2 : ℚ) ^ m ≤ q) (hhigh : q < (2 : ℚ) ^ (m + 1))
    (h1 : (n : ℚ) - 1 / 2 < q / 2 ^ (m - 52)) (h2 : q / 2 ^ (m - 52) < (n : ℚ) + 1 / 2) :
    roundB64 q = (n : ℚ) * 2 ^ (m - 52) := by
  rw [roundB64, if_pos hq, log2_eq_of_bounds hq hlow hhigh, pyRound_eq_of_near h1 h2]

theorem twa0 : totalWaitAfter 0 = 1 := rfl

theorem twa1 : totalWaitAfter 1 = 5404319552844595 / 2 ^ 52 := by
  have e : totalWaitAfter 1 = roundB64 (totalWaitAfter 0 + CLIPBOARD_RETRY_INTERVAL_SEC) := rfl
  have h0 : totalWaitAfter 0 + CLIPBOARD_RETRY_INTERVAL_SEC = 21617278211378381 / 2 ^ 54 := by
    rw [twa0, CLIPBOARD_RETRY_INTERVAL_SEC]; norm_num
  have h := @roundB64_eval (21617278211378381 / 2 ^ 54) 0 5404319552844595
    (by norm_num) (by norm_num) (by norm_num) (by norm_num) (by norm_num)
  rw [e, h0, h]
  norm_num

theorem twa2 : totalWaitAfter 2 = 3152519739159347 / 2 ^ 51 := by
  have e : totalWaitAfter 2 = roundB64 (totalWaitAfter 1 + CLIPBOARD_RETRY_INTERVAL_SEC) := rfl
  have h0 : totalWaitAfter 1 + CLIPBOARD_RETRY_INTERVAL_SEC = 25220157913274777 / 2 ^ 54 := by
    rw [twa1, CLIPBOARD_RETRY_INTERVAL_SEC]; norm_num
  have h := @roundB64_eval (25220157913274777 / 2 ^ 54) 0 6305039478318694
    (by norm_num) (by norm_num) (by norm_num) (by norm_num) (by norm_num)
  rw [e, h0, h]
  norm_num

theorem twa3 : totalWaitAfter 3 = 7205759403792793 / 2 ^ 52 := by
  have e : totalWaitAfter 3 = roundB64 (totalWaitAfter 2 + CLIPBOARD_RETRY_INTERVAL_SEC) := rfl
  have h0 : totalWaitAfter 2 + CLIPBOARD_RETRY_INTERVAL_SEC = 28823037615171173 / 2 ^ 54 := by
    rw [twa2, CLIPBOARD_RETRY_INTERVAL_SEC]; norm_num
  have h := @roundB64_eval (28823037615171173 / 2 ^ 54) 0 7205759403792793
    (by norm_num) (by norm_num) (by norm_num) (by norm_num) (by norm_num)
  rw [e, h0, h]
  norm_num

theorem twa4 : totalWaitAfter 4 = 2026619832316723 / 2 ^ 50 := by
  have e : totalWaitAfter 4 = roundB64 (totalWaitAfter 3 + CLIPBOARD_RETRY_INTERVAL_SEC) := rfl
  have h0 : totalWaitAfter 3 + CLIPBOARD_RETRY_INTERVAL_SEC = 32425917317067569 / 2 ^ 54 := by
    rw [twa3, CLIPBOARD_RETRY_INTERVAL_SEC]; norm_num
  have h := @roundB64_eval (32425917317067569 / 2 ^ 54) 0 8106479329266892
    (by norm_num) (by norm_num) (by norm_num) (by norm_num) (by norm_num)
  rw [e, h0, h]
  norm_num

theorem twa5 : totalWaitAfter 5 = 9007199254740991 / 2 ^ 52 := by
  have e : totalWaitAfter 5 = roundB64 (totalWaitAfter 4 + CLIPBOARD_RETRY_INTERVAL_SEC) := rfl
  have h0 : totalWaitAfter 4 + CLIPBOARD_RETRY_INTERVAL_SEC = 36028797018963965 / 2 ^ 54 := by
    rw [twa4, CLIPBOARD_RETRY_INTERVAL_SEC]; norm_num
  have h := @roundB64_eval (36028797018963965 / 2 ^ 54) 0 9007199254740991
    (by norm_num) (by norm_num) (by norm_num) (by norm_num) (by norm_num)
  rw [e, h0, h]
  norm_num

theorem twa6 : totalWaitAfter 6 = 4953959590107545 / 2 ^ 51 := by
  have e : totalWaitAfter 6 = roundB64 (totalWaitAfter 5 + CLIPBOARD_RETRY_INTERVAL_SEC) := rfl
  have h0 : totalWaitAfter 5 + CLIPBOARD_RETRY_INTERVAL_SEC = 39631676720860361 / 2 ^ 54 := by
    rw [twa5, CLIPBOARD_RETRY_INTERVAL_SEC]; norm_num
  have h := @roundB64_eval (39631676720860361 / 2 ^ 54) 1 4953959590107545
    (by norm_num) (by norm_num) (by norm_num) (by norm_num) (by norm_num)
  rw [e, h0, h]
  norm_num

theorem twa7 : totalWaitAfter 7 = 5404319552844595 / 2 ^ 51 := by
  have e : totalWaitAfter 7 = roundB64 (totalWaitAfter 6 + CLIPBOARD_RETRY_INTERVAL_SEC) := rfl
  have h0 : totalWaitAfter 6 + CLIPBOARD_RETRY_INTERVAL_SEC = 43234556422756757 / 2 ^ 54 := by
    rw [twa6, CLIPBOARD_RETRY_INTERVAL_SEC]; norm_num
  have h := @roundB64_eval (43234556422756757 / 2 ^ 54) 1 5404319552844595
    (by norm_num) (by norm_num) (by norm_num) (by norm_num) (by norm_num)
  rw [e, h0, h]
  norm_num

theorem twa8 : totalWaitAfter 8 = 5854679515581645 / 2 ^ 51 := by
  have e : totalWaitAfter 8 = roundB64 (totalWaitAfter 7 + CLIPBOARD_RETRY_INTERVAL_SEC) := rfl
  have h0 : totalWaitAfter 7 + CLIPBOARD_RETRY_INTERVAL_SEC = 46837436124653157 / 2 ^ 54 := by
    rw [twa7, CLIPBOARD_RETRY_INTERVAL_SEC]; norm_num
  have h := @roundB64_eval (46837436124653157 / 2 ^ 54) 1 5854679515581645
    (by norm_num) (by norm_num) (by norm_num) (by norm_num) (by norm_num)
  rw [e, h0, h]
  norm_num

theorem twa9 : totalWaitAfter 9 = 6305039478318695 / 2 ^ 51 := by
  have e : totalWaitAfter 9 = roundB64 (totalWaitAfter 8 + CLIPBOARD_RETRY_INTERVAL_SEC) := rfl
  have h0 : totalWaitAfter 8 + CLIPBOARD_RETRY_INTERVAL_SEC = 50440315826549557 / 2 ^ 54 := by
    rw [twa8, CLIPBOARD_RETRY_INTERVAL_SEC]; norm_num
  have h := @roundB64_eval (50440315826549557 / 2 ^ 54) 1 6305039478318695
    (by norm_num) (by norm_num) (by norm_num) (by norm_num) (by norm_num)
  rw [e, h0, h]
  norm_num

theorem totalWaitAfter_le_max {k : ℕ} (hk : k ≤ 9) :
    totalWaitAfter k ≤ CLIPBOARD_MAX_WAIT_SEC := by
  rw [CLIPBOARD_MAX_WAIT_SEC]
  interval_cases k
  · rw [twa0]; norm_num
  · rw [twa1]; norm_num
  · rw [twa2]; norm_num
  · rw [twa3]; norm_num
  · rw [twa4]; norm_num
  · rw [twa5]; norm_num
  · rw [twa6]; norm_num
  · rw [twa7]; norm_num
  · rw [twa8]; norm_num
  · rw [twa9]; norm_num

theorem totalWaitAfter_nine_lt :
    totalWaitAfter 9 < CLIPBOARD_MAX_WAIT_SEC := by
  rw [twa9, CLIPBOARD_MAX_WAIT_SEC]
  norm_num

theorem guard_true {k : ℕ} (hk : k ≤ 8) :
    roundB64 (totalWaitAfter k + CLIPBOARD_RETRY_INTERVAL_SEC) ≤ CLIPBOARD_MAX_WAIT_SEC := by
  have e : roundB64 (totalWaitAfter k + CLIPBOARD_RETRY_INTERVAL_SEC)
      = totalWaitAfter (k + 1) := rfl
  rw [e]
  exact totalWaitAfter_le_max (by omega)

theorem guard_nine_false :
    ¬ roundB64 (totalWaitAfter 9 + CLIPBOARD_RETRY_INTERVAL_SEC) ≤ CLIPBOARD_MAX_WAIT_SEC := by
  have h0 : totalWaitAfter 9 + CLIPBOARD_RETRY_INTERVAL_SEC = 54043195528445957 / 2 ^ 54 := by
    rw [twa9, CLIPBOARD_RETRY_INTERVAL_SEC]; norm_num
  have h := @roundB64_eval (54043195528445957 / 2 ^ 54) 1 6755399441055745
    (by norm_num) (by norm_num) (by norm_num) (by norm_num) (by norm_num)
  rw [h0, h, CLIPBOARD_MAX_WAIT_SEC]
  norm_num

theorem initial_le_max : CLIPBOARD_INITIAL_DELAY_SEC ≤ CLIPBOARD_MAX_WAIT_SEC := by
  rw [CLIPBOARD_INITIAL_DELAY_SEC, CLIPBOARD_MAX_WAIT_SEC]
  norm_num

theorem retryAux_ne {ref ts : String} {reads : ℕ → Option String} {fuel k : ℕ} {tw : ℚ}
    (h : ts ≠ ref) : retryAux ref reads fuel k tw ts = (ts, k, tw) := by
  cases fuel with
  | zero => rfl
  | succ fuel =>
    rw [retryAux, if_neg]
    rintro ⟨h1, -⟩
    exact h h1

theorem retryAux_stale {ref : String} {reads : ℕ → Option String} :
    ∀ fuel k, 9 ≤ k + fuel → k ≤ 9 → (∀ i, i ≤ 9 → normalizeReading (reads i) = ref) →
    retryAux ref reads fuel k (totalWaitAfter k) ref = (ref, 9, totalWaitAfter 9) := by
  intro fuel
  induction fuel with
  | zero =>
    intro k hk1 hk2 _
    rw [retryAux]
    rw [show k = 9 from by omega]
  | succ fuel ih =>
    intro k hk1 hk2 hall
    by_cases h9 : k = 9
    · subst h9
      rw [retryAux, if_neg]
      rintro ⟨-, hg⟩
      exact guard_nine_false hg
    · have e : roundB64 (totalWaitAfter k + CLIPBOARD_RETRY_INTERVAL_SEC)
          = totalWaitAfter (k + 1) := rfl
      rw [retryAux, if_pos ⟨rfl, guard_true (by omega)⟩, e, hall (k + 1) (by omega)]
      exact ih (k + 1) (by omega) (by omega) hall

theorem retryAux_first_diff {ref : String} {reads : ℕ → Option String} :
    ∀ fuel k j, 9 ≤ k + fuel → k < j → j ≤ 9 →
    (∀ i, k + 1 ≤ i → i < j → normalizeReading (reads i) = ref) →
    normalizeReading (reads j) ≠ ref →
    retryAux ref reads fuel k (totalWaitAfter k) ref
      = (normalizeReading (reads j), j, totalWaitAfter j) := by
  intro fuel
  induction fuel with
  | zero =>
    intro k j hk hkj hj _ _
    omega
  | succ fuel ih =>
    intro k j hk hkj hj hbetween hdiff
    have e : roundB64 (totalWaitAfter k + CLIPBOARD_RETRY_INTERVAL_SEC)
        = totalWaitAfter (k + 1) := rfl
    rw [retryAux, if_pos ⟨rfl, guard_true (by omega)⟩, e]
    by_cases hj1 : j = k + 1
    · subst hj1
      exact retryAux_ne hdiff
    · rw [hbetween (k + 1) (le_refl _) (by omega)]
      exact ih (k + 1) j (by omega) (by omega) hj
        (fun i hi1 hi2 => hbetween i (by omega) hi2) hdiff

theorem retryAux_wait_bound {ref : String} {reads : ℕ → Option String} :
    ∀ fuel k ts, k ≤ 9 →
    (retryAux ref reads fuel k (totalWaitAfter k) ts).2.2 ≤ CLIPBOARD_MAX_WAIT_SEC := by
  intro fuel
  induction fuel with
  | zero => intro k ts hk; exact totalWaitAfter_le_max hk
  | succ fuel ih =>
    intro k ts hk
    rw [retryAux]
    by_cases hcond : ts = ref ∧
        roundB64 (totalWaitAfter k + CLIPBOARD_RETRY_INTERVAL_SEC) ≤ CLIPBOARD_MAX_WAIT_SEC
    · have hk8 : k ≤ 8 := by
        by_contra hgt
        have h9 : k = 9 := by omega
        exact guard_nine_false (h9 ▸ hcond.2)
      have e : roundB64 (totalWaitAfter k + CLIPBOARD_RETRY_INTERVAL_SEC)
          = totalWaitAfter (k + 1) := rfl
      rw [if_pos hcond, e]
      exact ih (k + 1) _ (by omega)
    · rw [if_neg hcond]
      exact totalWaitAfter_le_max hk

theorem get_retry_none (reads : ℕ → Option String) :
    get_timestamp_with_retry none reads
      = (normalizeReading (reads 0), CLIPBOARD_INITIAL_DELAY_SEC) := rfl

theorem get_retry_some (ref : String) (reads : ℕ → Option String) :
    get_timestamp_with_retry (some ref) reads
      = if normalizeReading (reads 0) ≠ ref
        then (normalizeReading (reads 0), CLIPBOARD_INITIAL_DELAY_SEC)
        else
          ((retryAux ref reads RETRY_FUEL 0 CLIPBOARD_INITIAL_DELAY_SEC
              (normalizeReading (reads 0))).1,
            (retryAux ref reads RETRY_FUEL 0 CLIPBOARD_INITIAL_DELAY_SEC
              (normalizeReading (reads 0))).2.2) :=
  rfl

/-- C7: on a scripted sequence of clipboard readings, with absent or
empty readings standing for the UNKNOWN sentinel: with no reference, or
when the first reading differs from the reference, the first reading is
accepted after only the initial delay; when the first reading equals
the reference, the accepted value is the first subsequent reading that
differs from it, provided it arrives within the nine retries the
binary64 budget guard admits, with the cumulative wait the rounded
accumulation of that many retry intervals; when every reading within
the budget equals the reference, the stale reference value is accepted
as the result rather than an error being raised, with the wait equal to
the binary64 value 2.8000000000000003, strictly below the budget; and
the cumulative wait never exceeds the budget. -/
theorem c7_clipboard_retry (reads : ℕ → Option String)
    (referenceTimestamp : Option String) :
    (referenceTimestamp = none →
      get_timestamp_with_retry referenceTimestamp reads
        = (normalizeReading (reads 0), CLIPBOARD_INITIAL_DELAY_SEC)) ∧
    (∀ ref, referenceTimestamp = some ref → normalizeReading (reads 0) ≠ ref →
      get_timestamp_with_retry referenceTimestamp reads
        = (normalizeReading (reads 0), CLIPBOARD_INITIAL_DELAY_SEC)) ∧
    (∀ ref j, referenceTimestamp = some ref → normalizeReading (reads 0) = ref →
      1 ≤ j → j ≤ 9 →
      (∀ i, 1 ≤ i → i < j → normalizeReading (reads i) = ref) →
      normalizeReading (reads j) ≠ ref →
      get_timestamp_with_retry referenceTimestamp reads
        = (normalizeReading (reads j), totalWaitAfter j)) ∧
    (∀ ref, referenceTimestamp = some ref →
      (∀ i, i ≤ 9 → normalizeReading (reads i) = ref) →
      get_timestamp_with_retry referenceTimestamp reads
        = (ref, totalWaitAfter 9) ∧ totalWaitAfter 9 < CLIPBOARD_MAX_WAIT_SEC) ∧
    (get_timestamp_with_retry referenceTimestamp reads).2 ≤ CLIPBOARD_MAX_WAIT_SEC := by
  have e0 : (CLIPBOARD_INITIAL_DELAY_SEC : ℚ) = totalWaitAfter 0 := rfl
  refine ⟨?_, ?_, ?_, ?_, ?_⟩
  · rintro rfl
    exact get_retry_none reads
  · rintro ref rfl hdiff
    rw [get_retry_some, if_pos hdiff]
  · rintro ref j rfl heq h1 h9 hbetween hdiff
    rw [get_retry_some, if_neg (not_not_intro heq), heq, e0,
      retryAux_first_diff RETRY_FUEL 0 j (by simp [RETRY_FUEL]) (by omega) h9
        (fun i hi1 hi2 => hbetween i hi1 hi2) hdiff]
  · rintro ref rfl hall
    constructor
    · rw [get_retry_some, if_neg (not_not_intro (hall 0 (by omega))), hall 0 (by omega), e0,
        retryAux_stale RETRY_FUEL 0 (by simp [RETRY_FUEL]) (by omega) hall]
    · exact totalWaitAfter_nine_lt
  · cases referenceTimestamp with
    | none =>
      rw [get_retry_none]
      exact initial_le_max
    | some ref =>
      rw [get_retry_some]
      split
      · exact initial_le_max
      · exact retryAux_wait_bound RETRY_FUEL 0 _ (by omega)

/-- Witness for C7: with reference 00:10:00, a first reading equal to
it and a second reading 00:10:05, the accepted value is 00:10:05 after
one retry interval, the cumulative wait being the binary64 sum
1.0 + 0.2, slightly below six fifths of a second. -/
theorem c7_clipboard_retry_witness :
    get_timestamp_with_retry (some "00:10:00")
        (fun i => some (if i = 0 then "00:10:00" else "00:10:05"))
      = ("00:10:05", totalWaitAfter 1)
    ∧ totalWaitAfter 1 = 5404319552844595 / 2 ^ 52 := by
  constructor
  · have h := (c7_clipboard_retry
        (fun i => some (if i = 0 then "00:10:00" else "00:10:05"))
        (some "00:10:00")).2.2.1 "00:10:00" 1 rfl (by decide) (by omega) (by omega)
      (fun i hi1 hi2 => absurd (lt_of_le_of_lt hi1 hi2) (lt_irrefl 1)) (by decide)
    rw [h]
    rfl
  · exact twa1

end VideoClipper
